import Mathlib

/-!
Verification of the murkdown/Markdown message-formatting core
(`src/bobot_impl/src/tg/markdown.rs`): lexer, grammar, entity resolver and
`MarkupBuilder`, shallowly embedded in Lean.  Rust `String`s are Lean
`String`s; entity offsets and lengths (`i64` in the source, never near
overflow on the inputs considered) are modelled as `Int`; UTF-16 lengths
mirror `str::encode_utf16().count()`.
-/

set_option maxRecDepth 10000

namespace Bobot

/-- Number of UTF-16 code units a character occupies
(mirrors Rust `char::encode_utf16` length: 1 for BMP, 2 for astral). -/
def utf16Char (c : Char) : Nat :=
  if c.toNat < 0x10000 then 1 else 2

/-- UTF-16 code-unit length of a string, as Rust `s.encode_utf16().count()`. -/
def utf16Str (s : String) : Nat :=
  (s.data.map utf16Char).sum

/-- Tokens of the murkdown lexer (the `%type`-declared terminals of the
pomelo grammar in `markdown.rs`). -/
inductive Token where
  | RawChar (c : Char)
  | Underscore
  | DoubleUnderscore
  | DoubleBar
  | Tilde
  | Tick
  | Star
  | LSBracket
  | RSBracket
  | LParen
  | RParen
  | LCurly
  | RCurly
deriving Repr, DecidableEq

/-- The dedicated single-character marker tokens of `Lexer::next_token`
(the nine `match` arms `'~'` through `'}'`). -/
def simpleToken (c : Char) : Option Token :=
  if c = '~' then some Token.Tilde
  else if c = '`' then some Token.Tick
  else if c = '*' then some Token.Star
  else if c = '[' then some Token.LSBracket
  else if c = ']' then some Token.RSBracket
  else if c = '(' then some Token.LParen
  else if c = ')' then some Token.RParen
  else if c = '{' then some Token.LCurly
  else if c = '}' then some Token.RCurly
  else none

/-- `Lexer::next_token` from `markdown.rs`: pulls one token off the character
stream, returning the token and the unconsumed remainder (`None` at
end of input, after a trailing backslash, or after trailing skipped `|`s).
The peekable-iterator state is the remaining character list. -/
def next_token : List Char → Option (Token × List Char)
  | [] => none
  | c :: rest =>
    if c = '\\' then
      match rest with
      | [] => none
      | c2 :: rest2 => some (Token.RawChar c2, rest2)
    else if c = '_' then
      match rest with
      | c2 :: rest2 => if c2 = '_' then some (Token.DoubleUnderscore, rest2)
                       else some (Token.Underscore, rest)
      | [] => some (Token.Underscore, rest)
    else if c = '|' then
      match rest with
      | c2 :: rest2 => if c2 = '|' then some (Token.DoubleBar, rest2)
                       else next_token (c2 :: rest2)
      | [] => none
    else
      match simpleToken c with
      | some t => some (t, rest)
      | none => some (Token.RawChar c, rest)

/-- Unfolding of `next_token` on a non-escape, non-underscore, non-bar head. -/
theorem next_token_simple (c : Char) (cs : List Char)
    (h1 : ¬ c = '\\') (h2 : ¬ c = '_') (h3 : ¬ c = '|') :
    next_token (c :: cs) =
      match simpleToken c with
      | some tk => some (tk, cs)
      | none => some (Token.RawChar c, cs) := by
  rw [next_token.eq_def]
  simp [h1, h2, h3]

/-- Each produced token strictly consumes input. -/
theorem next_token_progress :
    ∀ cs t rest, next_token cs = some (t, rest) → rest.length < cs.length := by
  intro cs
  induction cs with
  | nil => intro t rest h; simp [next_token] at h
  | cons c cs ih =>
    intro t rest h
    by_cases h1 : c = '\\'
    · subst h1
      cases cs with
      | nil => simp [next_token] at h
      | cons c2 rest2 =>
        simp [next_token] at h
        rcases h with ⟨-, rfl⟩
        simp
        omega
    · by_cases h2 : c = '_'
      · subst h2
        cases cs with
        | nil =>
          simp [next_token] at h
          rcases h with ⟨-, rfl⟩
          simp
        | cons c2 rest2 =>
          by_cases hc2 : c2 = '_'
          · subst hc2
            simp [next_token] at h
            rcases h with ⟨-, rfl⟩
            simp
            omega
          · simp [next_token, hc2] at h
            rcases h with ⟨-, rfl⟩
            simp
      · by_cases h3 : c = '|'
        · subst h3
          cases cs with
          | nil => simp [next_token] at h
          | cons c2 rest2 =>
            by_cases hc2 : c2 = '|'
            · subst hc2
              simp [next_token] at h
              rcases h with ⟨-, rfl⟩
              simp
              omega
            · simp [next_token, hc2] at h
              have hlt := ih t rest h
              simp at hlt ⊢
              omega
        · rw [next_token_simple c cs h1 h2 h3] at h
          cases hst : simpleToken c <;> simp [hst] at h <;>
            (rcases h with ⟨-, rfl⟩; simp)

/-- Fueled repetition of `next_token`; `lex` instantiates the fuel so it
cannot run out (`lexFuel_stable`). -/
def lexFuel : Nat → List Char → List Token
  | 0, _ => []
  | f + 1, cs =>
    match next_token cs with
    | none => []
    | some (t, rest) => t :: lexFuel f rest

/-- Any fuel exceeding the input length yields the same token stream, so the
fuel chosen in `lex` is irrelevant: the model is the unbounded loop. -/
theorem lexFuel_stable :
    ∀ f g cs, cs.length < f → cs.length < g → lexFuel f cs = lexFuel g cs := by
  intro f
  induction f with
  | zero => intro g cs h; omega
  | succ f ih =>
    intro g cs hf hg
    cases g with
    | zero => omega
    | succ g =>
      simp only [lexFuel]
      cases h : next_token cs with
      | none => simp [h]
      | some tr =>
        obtain ⟨t, rest⟩ := tr
        have hlt := next_token_progress cs t rest h
        simp only [h]
        rw [ih g rest (by omega) (by omega)]

/-- The full token stream of an input: repeated `next_token` until exhaustion
(the `while let` loop in `from_murkdown_internal`). -/
def lex (cs : List Char) : List Token :=
  lexFuel (cs.length + 1) cs

/-- The murkdown span AST (`TgSpan` in `markdown.rs`). -/
inductive TgSpan where
  | Code (s : String)
  | Italic (children : List TgSpan)
  | Bold (children : List TgSpan)
  | Strikethrough (children : List TgSpan)
  | Underline (children : List TgSpan)
  | Spoiler (children : List TgSpan)
  | Link (children : List TgSpan) (url : String)
  | Raw (s : String)
  | Filling (name : String)

/-- Derivations of the `raw` nonterminal of the pomelo grammar:
one or more consecutive `RawChar` tokens folded left into a string. -/
inductive DRaw : List Token → String → Prop where
  | single (c : Char) : DRaw [Token.RawChar c] (String.mk [c])
  | push (ts : List Token) (s : String) (c : Char) :
      DRaw ts s → DRaw (ts ++ [Token.RawChar c]) (s.push c)

/-- The nonterminals `word`, `words` and `main` of the pomelo grammar. -/
inductive NT where
  | word
  | words
  | main

/-- Derivation relation of the pomelo grammar in `markdown.rs` (lines 57-79),
transcribed production by production; `word` derivations produce singleton
span lists, the `wordraw` helper nonterminal is inlined into the `words`
productions that use it.  `input ::= main` is identified with `main`. -/
inductive Deriv : NT → List Token → List TgSpan → Prop where
  | filling (ts : List Token) (s : String) :
      DRaw ts s →
      Deriv NT.word (Token.LCurly :: ts ++ [Token.RCurly]) [TgSpan.Filling s]
  | code (ts : List Token) (s : String) :
      DRaw ts s →
      Deriv NT.word (Token.LSBracket :: Token.Tick :: ts ++ [Token.RSBracket]) [TgSpan.Code s]
  | bold (ts : List Token) (sp : List TgSpan) :
      Deriv NT.main ts sp →
      Deriv NT.word (Token.LSBracket :: Token.Star :: ts ++ [Token.RSBracket]) [TgSpan.Bold sp]
  | link (ts : List Token) (sp : List TgSpan) (us : List Token) (u : String) :
      Deriv NT.main ts sp → DRaw us u →
      Deriv NT.word
        (Token.LSBracket :: ts ++ [Token.RSBracket, Token.LParen] ++ us ++ [Token.RParen])
        [TgSpan.Link sp u]
  | strike (ts : List Token) (sp : List TgSpan) :
      Deriv NT.words ts sp →
      Deriv NT.word (Token.LSBracket :: Token.Tilde :: ts ++ [Token.RSBracket])
        [TgSpan.Strikethrough sp]
  | italic (ts : List Token) (sp : List TgSpan) :
      Deriv NT.main ts sp →
      Deriv NT.word (Token.LSBracket :: Token.Underscore :: ts ++ [Token.RSBracket])
        [TgSpan.Italic sp]
  | underline (ts : List Token) (sp : List TgSpan) :
      Deriv NT.main ts sp →
      Deriv NT.word (Token.LSBracket :: Token.DoubleUnderscore :: ts ++ [Token.RSBracket])
        [TgSpan.Underline sp]
  | spoiler (ts : List Token) (sp : List TgSpan) :
      Deriv NT.main ts sp →
      Deriv NT.word (Token.LSBracket :: Token.DoubleBar :: ts ++ [Token.RSBracket])
        [TgSpan.Spoiler sp]
  | words_app (t1 t2 : List Token) (L W : List TgSpan) :
      Deriv NT.words t1 L → Deriv NT.word t2 W →
      Deriv NT.words (t1 ++ t2) (L ++ W)
  | words_appwr (t1 t2 t3 : List Token) (L W : List TgSpan) (r : String) :
      Deriv NT.words t1 L → Deriv NT.word t2 W → DRaw t3 r →
      Deriv NT.words (t1 ++ t2 ++ t3) (L ++ W ++ [TgSpan.Raw r])
  | words_wr (t1 t2 : List Token) (W : List TgSpan) (r : String) :
      Deriv NT.word t1 W → DRaw t2 r →
      Deriv NT.words (t1 ++ t2) (W ++ [TgSpan.Raw r])
  | words_word (ts : List Token) (W : List TgSpan) :
      Deriv NT.word ts W → Deriv NT.words ts W
  | words_raw (ts : List Token) (r : String) :
      DRaw ts r → Deriv NT.words ts [TgSpan.Raw r]
  | main_empty : Deriv NT.main [] []
  | main_words (ts : List Token) (sp : List TgSpan) :
      Deriv NT.words ts sp → Deriv NT.main ts sp

/-- Fold a maximal run of `RawChar` tokens into their characters
(the left-recursive `raw` production; the generated parser shifts as long
as `RawChar`s arrive). -/
def takeRawChars : List Token → List Char × List Token
  | Token.RawChar c :: rest =>
    let (cs, rest') := takeRawChars rest
    (c :: cs, rest')
  | ts => ([], ts)

mutual

/-- Executable model of the pomelo-generated parser (the generated LALR
tables are macro output and not part of the sources; this is a
deterministic recursive-descent reading of the grammar productions,
returning the parsed span list and unconsumed tokens).  `parseItems`
parses the `main` nonterminal: a possibly empty sequence of `word`s and
maximal raw runs, stopping at the first token that can begin neither. -/
def parseItems : Nat → List Token → Option (List TgSpan × List Token)
  | 0, _ => none
  | f + 1, ts =>
    match ts with
    | Token.RawChar c :: rest =>
      let (cs, rest') := takeRawChars rest
      match parseItems f rest' with
      | some (sp, rest'') => some (TgSpan.Raw (String.mk (c :: cs)) :: sp, rest'')
      | none => none
    | Token.LCurly :: rest =>
      match takeRawChars rest with
      | ([], _) => none
      | (c :: cs, Token.RCurly :: rest') =>
        match parseItems f rest' with
        | some (sp, rest'') => some (TgSpan.Filling (String.mk (c :: cs)) :: sp, rest'')
        | none => none
      | (_ :: _, _) => none
    | Token.LSBracket :: rest =>
      match parseBracket f rest with
      | some (w, rest') =>
        match parseItems f rest' with
        | some (sp, rest'') => some (w :: sp, rest'')
        | none => none
      | none => none
    | _ => some ([], ts)

/-- Parses the body of a `word` production that begins with `LSBracket`
(which has already been consumed): code, bold, strikethrough, italic,
underline, spoiler, or the link form `main RSBracket LParen raw RParen`. -/
def parseBracket : Nat → List Token → Option (TgSpan × List Token)
  | 0, _ => none
  | f + 1, ts =>
    match ts with
    | Token.Tick :: rest =>
      match takeRawChars rest with
      | ([], _) => none
      | (c :: cs, Token.RSBracket :: rest') =>
        some (TgSpan.Code (String.mk (c :: cs)), rest')
      | (_ :: _, _) => none
    | Token.Star :: rest =>
      match parseItems f rest with
      | some (sp, Token.RSBracket :: rest') => some (TgSpan.Bold sp, rest')
      | _ => none
    | Token.Tilde :: rest =>
      match parseItems f rest with
      | some ([], _) => none
      | some (sp, Token.RSBracket :: rest') => some (TgSpan.Strikethrough sp, rest')
      | _ => none
    | Token.Underscore :: rest =>
      match parseItems f rest with
      | some (sp, Token.RSBracket :: rest') => some (TgSpan.Italic sp, rest')
      | _ => none
    | Token.DoubleUnderscore :: rest =>
      match parseItems f rest with
      | some (sp, Token.RSBracket :: rest') => some (TgSpan.Underline sp, rest')
      | _ => none
    | Token.DoubleBar :: rest =>
      match parseItems f rest with
      | some (sp, Token.RSBracket :: rest') => some (TgSpan.Spoiler sp, rest')
      | _ => none
    | _ =>
      match parseItems f ts with
      | some (sp, Token.RSBracket :: Token.LParen :: rest') =>
        match takeRawChars rest' with
        | ([], _) => none
        | (c :: cs, Token.RParen :: rest'') =>
          some (TgSpan.Link sp (String.mk (c :: cs)), rest'')
        | (_ :: _, _) => none
      | _ => none

end

/-- Fuel that is always sufficient for `parseItems` on the given stream. -/
def parseFuel (ts : List Token) : Nat := 2 * ts.length + 2

/-- The full parse of a murkdown source string: lex, then parse `main`. -/
def murk_parse (s : String) : Option (List TgSpan × List Token) :=
  parseItems (parseFuel (lex s.data)) (lex s.data)

/-- Modelled from the spec: sender record of the optional runtime context
(external chat-API `User`; §6: numeric id, first name, optional last name,
optional username, bot flag). -/
structure User where
  id : Int
  first_name : String
  last_name : Option String
  username : Option String
  is_bot : Bool
deriving Repr, DecidableEq

/-- Modelled from the spec: chat record of the runtime context
(numeric id, display name). -/
structure Chat where
  id : Int
  title : String
deriving Repr, DecidableEq

/-- Modelled from the spec: the optional context message, reduced to the two
accessors Filling resolution uses (`get_from`, `get_chat`). -/
structure Message where
  get_from : Option User
  get_chat : Chat
deriving Repr, DecidableEq

/-- Modelled from the spec: `name_humanreadable` for users (defined in the
user-utilities module, which is not among the provided sources): the
sender's full display name. -/
def User.name_humanreadable (u : User) : String :=
  u.first_name ++ (match u.last_name with | some l => " " ++ l | none => "")

/-- Modelled from the spec: `name_humanreadable` for chats: the chat's
display name. -/
def Chat.name_humanreadable (c : Chat) : String := c.title

/-- The wire-format entity record (external `MessageEntity`, as assembled
through `MessageEntityBuilder` in the source): kind tag, offset and length
in UTF-16 code units, optional payloads. -/
structure MessageEntity where
  type : String
  offset : Int
  length : Int
  url : Option String := none
  user : Option User := none
  language : Option String := none
  custom_emoji_id : Option String := none
deriving Repr, DecidableEq

/-- `MessageEntityBuilder::new(offset, length).set_type(ty).build()`. -/
def mkEntity (ty : String) (offset length : Int) : MessageEntity :=
  { type := ty, offset := offset, length := length }

/-- `MarkupType` from `markdown.rs`. -/
inductive MarkupType where
  | Text
  | StrikeThrough
  | HashTag
  | CashTag
  | BotCommand
  | Email
  | PhoneNumber
  | Bold
  | Italic
  | Underline
  | Spoiler
  | Code
  | Mention
  | TextLink (url : String)
  | TextMention (user : User)
  | Pre (language : String)
  | CustomEmoji (emoji_id : String)
deriving Repr, DecidableEq

/-- `Markup` from `markdown.rs` (the borrowed text is inlined). Its
`advance` method sets the `advance` field; construction via
`MarkupType::text` leaves it `none`. -/
structure Markup where
  markup_type : MarkupType
  text : String
  advance : Option Int
deriving Repr, DecidableEq

/-- `MarkupType::text`. -/
def MarkupType.text (m : MarkupType) (t : String) : Markup :=
  { markup_type := m, text := t, advance := none }

/-- `Markup::get_type` (note the source maps `BotCommand` to the tag
`"botcommand"`, without an underscore). -/
def Markup.get_type (m : Markup) : String :=
  match m.markup_type with
  | MarkupType.Text => ""
  | MarkupType.TextMention _ => "text_mention"
  | MarkupType.TextLink _ => "text_link"
  | MarkupType.Pre _ => "pre"
  | MarkupType.CustomEmoji _ => "custom_emoji"
  | MarkupType.StrikeThrough => "strikethrough"
  | MarkupType.HashTag => "hashtag"
  | MarkupType.CashTag => "cashtag"
  | MarkupType.BotCommand => "botcommand"
  | MarkupType.Email => "email"
  | MarkupType.PhoneNumber => "phone_number"
  | MarkupType.Bold => "bold"
  | MarkupType.Italic => "italic"
  | MarkupType.Underline => "underline"
  | MarkupType.Spoiler => "spoiler"
  | MarkupType.Code => "code"
  | MarkupType.Mention => "mention"

/-- `MarkupBuilder`: accumulated entity list, UTF-16 cursor, text buffer. -/
structure MarkupBuilder where
  entities : List MessageEntity
  offset : Int
  text : String
deriving Repr, DecidableEq

/-- `MarkupBuilder::new`. -/
def MarkupBuilder.new : MarkupBuilder := { entities := [], offset := 0, text := "" }

/-- `MarkupBuilder::text` (named `textOp` because the field accessor
`MarkupBuilder.text` takes the source name in Lean): append literal text
and advance the cursor by its UTF-16 length. -/
def MarkupBuilder.textOp (b : MarkupBuilder) (t : String) : MarkupBuilder :=
  { b with text := b.text ++ t, offset := b.offset + (utf16Str t : Int) }

/-- `MarkupBuilder::manual`. -/
def MarkupBuilder.manual (b : MarkupBuilder) (entity_type : String) (start e : Int) :
    MarkupBuilder :=
  { b with entities := b.entities ++ [mkEntity entity_type start e] }

/-- `MarkupBuilder::regular`. -/
def MarkupBuilder.regular (b : MarkupBuilder) (entity_type : Markup) : MarkupBuilder :=
  let n : Int := utf16Str entity_type.text
  let e0 := mkEntity entity_type.get_type b.offset n
  let entity :=
    match entity_type.markup_type with
    | MarkupType.TextLink link => { e0 with url := some link }
    | MarkupType.TextMention mention => { e0 with user := some mention }
    | MarkupType.Pre pre => { e0 with language := some pre }
    | MarkupType.CustomEmoji emoji => { e0 with custom_emoji_id := some emoji }
    | _ => e0
  { text := b.text ++ entity_type.text,
    offset := b.offset + entity_type.advance.getD n,
    entities := b.entities ++ [entity] }

/-- `MarkupBuilder::text_link`. -/
def MarkupBuilder.text_link (b : MarkupBuilder) (t link : String) (advance : Option Int) :
    MarkupBuilder :=
  let n : Int := utf16Str t
  { entities := b.entities ++ [{ mkEntity "text_link" b.offset n with url := some link }],
    offset := b.offset + advance.getD n,
    text := b.text ++ t }

/-- `MarkupBuilder::text_mention`. -/
def MarkupBuilder.text_mention (b : MarkupBuilder) (t : String) (mention : User)
    (advance : Option Int) : MarkupBuilder :=
  let n : Int := utf16Str t
  { entities := b.entities ++ [{ mkEntity "text_mention" b.offset n with user := some mention }],
    offset := b.offset + advance.getD n,
    text := b.text ++ t }

/-- `MarkupBuilder::pre`. -/
def MarkupBuilder.pre (b : MarkupBuilder) (t language : String) (advance : Option Int) :
    MarkupBuilder :=
  let n : Int := utf16Str t
  { entities := b.entities ++ [{ mkEntity "pre" b.offset n with language := some language }],
    offset := b.offset + advance.getD n,
    text := b.text ++ t }

/-- `MarkupBuilder::custom_emoji`. -/
def MarkupBuilder.custom_emoji (b : MarkupBuilder) (t emoji_id : String)
    (advance : Option Int) : MarkupBuilder :=
  let n : Int := utf16Str t
  { entities := b.entities ++
      [{ mkEntity "custom_emoji" b.offset n with custom_emoji_id := some emoji_id }],
    offset := b.offset + advance.getD n,
    text := b.text ++ t }

/-- `MarkupBuilder::strikethrough`. -/
def MarkupBuilder.strikethrough (b : MarkupBuilder) (t : String) : MarkupBuilder :=
  b.regular (MarkupType.StrikeThrough.text t)

/-- `MarkupBuilder::hashtag`. -/
def MarkupBuilder.hashtag (b : MarkupBuilder) (t : String) : MarkupBuilder :=
  b.regular (MarkupType.HashTag.text t)

/-- `MarkupBuilder::cashtag`. -/
def MarkupBuilder.cashtag (b : MarkupBuilder) (t : String) : MarkupBuilder :=
  b.regular (MarkupType.CashTag.text t)

/-- `MarkupBuilder::bot_command`. -/
def MarkupBuilder.bot_command (b : MarkupBuilder) (t : String) : MarkupBuilder :=
  b.regular (MarkupType.BotCommand.text t)

/-- `MarkupBuilder::email`. -/
def MarkupBuilder.email (b : MarkupBuilder) (t : String) : MarkupBuilder :=
  b.regular (MarkupType.Email.text t)

/-- `MarkupBuilder::phone_number`. -/
def MarkupBuilder.phone_number (b : MarkupBuilder) (t : String) : MarkupBuilder :=
  b.regular (MarkupType.PhoneNumber.text t)

/-- `MarkupBuilder::bold`. -/
def MarkupBuilder.bold (b : MarkupBuilder) (t : String) : MarkupBuilder :=
  b.regular (MarkupType.Bold.text t)

/-- `MarkupBuilder::italic`. -/
def MarkupBuilder.italic (b : MarkupBuilder) (t : String) : MarkupBuilder :=
  b.regular (MarkupType.Italic.text t)

/-- `MarkupBuilder::underline`. -/
def MarkupBuilder.underline (b : MarkupBuilder) (t : String) : MarkupBuilder :=
  b.regular (MarkupType.Underline.text t)

/-- `MarkupBuilder::spoiler`. -/
def MarkupBuilder.spoiler (b : MarkupBuilder) (t : String) : MarkupBuilder :=
  b.regular (MarkupType.Spoiler.text t)

/-- `MarkupBuilder::code`. -/
def MarkupBuilder.code (b : MarkupBuilder) (t : String) : MarkupBuilder :=
  b.regular (MarkupType.Code.text t)

/-- `MarkupBuilder::mention`. -/
def MarkupBuilder.mention (b : MarkupBuilder) (t : String) : MarkupBuilder :=
  b.regular (MarkupType.Mention.text t)

/-- `MarkupBuilder::s`: append one literal space. -/
def MarkupBuilder.s (b : MarkupBuilder) : MarkupBuilder :=
  { b with offset := b.offset + (utf16Str " " : Int), text := b.text ++ " " }

/-- `MarkupBuilder::build` / `build_owned`. -/
def MarkupBuilder.build (b : MarkupBuilder) : String × List MessageEntity :=
  (b.text, b.entities)

/-- The `TgSpan::Filling` arms of `parse_tgspan`: template-field dispatch
against the optional context; returns the updated builder and the size
contribution added to the running total. -/
def parse_filling (b : MarkupBuilder) (filling : String) (message : Option Message) :
    MarkupBuilder × Int :=
  match message with
  | some message =>
    if filling = "username" then
      match message.get_from with
      | some user =>
        (b.text_mention user.name_humanreadable user none,
         (utf16Str user.name_humanreadable : Int))
      | none => (b, 0)
    else if filling = "first" then
      match message.get_from with
      | some user => (b.textOp user.first_name, (utf16Str user.first_name : Int))
      | none => (b, 0)
    else if filling = "last" then
      match message.get_from with
      | some user =>
        let last := user.last_name.getD ""
        (b.textOp last, (utf16Str last : Int))
      | none => (b, 0)
    else if filling = "mention" then
      match message.get_from with
      | some user => (b.text_mention user.first_name user none, (utf16Str user.first_name : Int))
      | none => (b, 0)
    else if filling = "chatname" then
      let chat := message.get_chat.name_humanreadable
      (b.textOp chat, (utf16Str chat : Int))
    else if filling = "id" then
      match message.get_from with
      | some user =>
        let id := toString user.id
        (b.textOp id, (utf16Str id : Int))
      | none => (b, 0)
    else
      let s := "\x7b" ++ filling ++ "\x7d"
      (b.textOp s, (utf16Str s : Int))
  | none =>
    let s := "\x7b" ++ filling ++ "\x7d"
    (b.textOp s, (utf16Str s : Int))

/-- The loop body of `MarkupBuilder::parse_tgspan`: walks the span list,
threading the builder and accumulating `size`.  Mirrors the source arm by
arm; in particular the `Code` arm appends through `self.code` without
adding to `size` (source line 152). -/
def parse_fold (b : MarkupBuilder) (spans : List TgSpan) (message : Option Message) :
    MarkupBuilder × Int :=
  match spans with
  | [] => (b, 0)
  | TgSpan.Code code :: rest =>
    let b1 := b.code code
    let (b2, sz) := parse_fold b1 rest message
    (b2, sz)
  | TgSpan.Italic s :: rest =>
    let (b1, e) := parse_fold b s message
    let b2 := b1.manual "italic" (b1.offset - e) e
    let (b3, sz) := parse_fold b2 rest message
    (b3, e + sz)
  | TgSpan.Bold s :: rest =>
    let (b1, e) := parse_fold b s message
    let b2 := b1.manual "bold" (b1.offset - e) e
    let (b3, sz) := parse_fold b2 rest message
    (b3, e + sz)
  | TgSpan.Strikethrough s :: rest =>
    let (b1, e) := parse_fold b s message
    let b2 := b1.manual "strikethrough" (b1.offset - e) e
    let (b3, sz) := parse_fold b2 rest message
    (b3, e + sz)
  | TgSpan.Underline s :: rest =>
    let (b1, e) := parse_fold b s message
    let b2 := b1.manual "underline" (b1.offset - e) e
    let (b3, sz) := parse_fold b2 rest message
    (b3, e + sz)
  | TgSpan.Spoiler s :: rest =>
    let (b1, e) := parse_fold b s message
    let b2 := b1.manual "spoiler" (b1.offset - e) e
    let (b3, sz) := parse_fold b2 rest message
    (b3, e + sz)
  | TgSpan.Link hint link :: rest =>
    let (b1, e) := parse_fold b hint message
    let b2 := { b1 with entities :=
      b1.entities ++ [{ mkEntity "text_link" (b1.offset - e) e with url := some link }] }
    let (b3, sz) := parse_fold b2 rest message
    (b3, e + sz)
  | TgSpan.Raw s :: rest =>
    let b1 := b.textOp s
    let (b2, sz) := parse_fold b1 rest message
    (b2, (utf16Str s : Int) + sz)
  | TgSpan.Filling filling :: rest =>
    let (b1, s1) := parse_filling b filling message
    let (b2, sz) := parse_fold b1 rest message
    (b2, s1 + sz)

/-- `MarkupBuilder::parse_tgspan`: processes a span list and returns the
updated builder together with the `(offset, size)` pair the source
returns (`offset = self.offset - size`). -/
def parse_tgspan (b : MarkupBuilder) (spans : List TgSpan) (message : Option Message) :
    MarkupBuilder × Int × Int :=
  let (b1, size) := parse_fold b spans message
  (b1, b1.offset - size, size)

/-- `DefaultParseErr`. -/
structure DefaultParseErr where
deriving Repr, DecidableEq

/-- `MarkupBuilder::from_murkdown_internal`: lex, parse, and on success
resolve the span tree into a fresh builder; any token stream the parser
cannot reduce to `input` yields `Except.error`. -/
def from_murkdown_internal (text : String) (messsage : Option Message) :
    Except DefaultParseErr MarkupBuilder :=
  let ts := lex text.data
  match parseItems (parseFuel ts) ts with
  | some (res, []) => Except.ok (parse_tgspan MarkupBuilder.new res messsage).1
  | _ => Except.error {}

/-- `MarkupBuilder::from_murkdown`. -/
def from_murkdown (text : String) : Except DefaultParseErr MarkupBuilder :=
  from_murkdown_internal text none

/-- `MarkupBuilder::from_murkdown_message`. -/
def from_murkdown_message (text : String) (message : Message) :
    Except DefaultParseErr MarkupBuilder :=
  from_murkdown_internal text (some message)

/-! ### Generic unfolding lemmas for the resolver -/

/-- Resolving a single wrapped span: children first, then one entity of the
matching kind appended after them, anchored at `offset - size` with the
accumulated child size. -/
theorem parse_fold_wrap (mk : List TgSpan → TgSpan) (kind : String)
    (hmk : ∀ (s : List TgSpan) (rest : List TgSpan) (b : MarkupBuilder) (m : Option Message),
      parse_fold b (mk s :: rest) m =
        (let p1 := parse_fold b s m
         let b2 := p1.1.manual kind (p1.1.offset - p1.2) p1.2
         let p3 := parse_fold b2 rest m
         (p3.1, p1.2 + p3.2)))
    (b : MarkupBuilder) (s : List TgSpan) (m : Option Message) :
    parse_tgspan b [mk s] m =
      (((parse_tgspan b s m).1).manual kind (parse_tgspan b s m).2.1 (parse_tgspan b s m).2.2,
       (parse_tgspan b s m).2.1, (parse_tgspan b s m).2.2) := by
  cases hx : parse_fold b s m with
  | mk b1 e =>
    simp only [parse_tgspan, hmk, hx, parse_fold, MarkupBuilder.manual, add_zero]

/-- One-step unfolding of `parse_fold` at a `Bold` head. -/
theorem parse_fold_bold (b : MarkupBuilder) (s rest : List TgSpan) (m : Option Message) :
    parse_fold b (TgSpan.Bold s :: rest) m =
      (let p1 := parse_fold b s m
       let b2 := p1.1.manual "bold" (p1.1.offset - p1.2) p1.2
       let p3 := parse_fold b2 rest m
       (p3.1, p1.2 + p3.2)) := by
  cases hx : parse_fold b s m with
  | mk b1 e => rw [parse_fold]; simp [hx]

/-- One-step unfolding of `parse_fold` at an `Italic` head. -/
theorem parse_fold_italic (b : MarkupBuilder) (s rest : List TgSpan) (m : Option Message) :
    parse_fold b (TgSpan.Italic s :: rest) m =
      (let p1 := parse_fold b s m
       let b2 := p1.1.manual "italic" (p1.1.offset - p1.2) p1.2
       let p3 := parse_fold b2 rest m
       (p3.1, p1.2 + p3.2)) := by
  cases hx : parse_fold b s m with
  | mk b1 e => rw [parse_fold]; simp [hx]

/-- One-step unfolding of `parse_fold` at an `Underline` head. -/
theorem parse_fold_underline (b : MarkupBuilder) (s rest : List TgSpan) (m : Option Message) :
    parse_fold b (TgSpan.Underline s :: rest) m =
      (let p1 := parse_fold b s m
       let b2 := p1.1.manual "underline" (p1.1.offset - p1.2) p1.2
       let p3 := parse_fold b2 rest m
       (p3.1, p1.2 + p3.2)) := by
  cases hx : parse_fold b s m with
  | mk b1 e => rw [parse_fold]; simp [hx]

/-- One-step unfolding of `parse_fold` at a `Strikethrough` head. -/
theorem parse_fold_strikethrough (b : MarkupBuilder) (s rest : List TgSpan) (m : Option Message) :
    parse_fold b (TgSpan.Strikethrough s :: rest) m =
      (let p1 := parse_fold b s m
       let b2 := p1.1.manual "strikethrough" (p1.1.offset - p1.2) p1.2
       let p3 := parse_fold b2 rest m
       (p3.1, p1.2 + p3.2)) := by
  cases hx : parse_fold b s m with
  | mk b1 e => rw [parse_fold]; simp [hx]

/-- One-step unfolding of `parse_fold` at a `Spoiler` head. -/
theorem parse_fold_spoiler (b : MarkupBuilder) (s rest : List TgSpan) (m : Option Message) :
    parse_fold b (TgSpan.Spoiler s :: rest) m =
      (let p1 := parse_fold b s m
       let b2 := p1.1.manual "spoiler" (p1.1.offset - p1.2) p1.2
       let p3 := parse_fold b2 rest m
       (p3.1, p1.2 + p3.2)) := by
  cases hx : parse_fold b s m with
  | mk b1 e => rw [parse_fold]; simp [hx]

/-- One-step unfolding of `parse_fold` at a `Link` head. -/
theorem parse_fold_link (b : MarkupBuilder) (s rest : List TgSpan) (url : String)
    (m : Option Message) :
    parse_fold b (TgSpan.Link s url :: rest) m =
      (let p1 := parse_fold b s m
       let b2 := { p1.1 with entities := p1.1.entities ++
         [{ mkEntity "text_link" (p1.1.offset - p1.2) p1.2 with url := some url }] }
       let p3 := parse_fold b2 rest m
       (p3.1, p1.2 + p3.2)) := by
  cases hx : parse_fold b s m with
  | mk b1 e => rw [parse_fold]; simp [hx]

/-- One-step unfolding of `parse_fold` at a `Filling` head. -/
theorem parse_fold_filling (b : MarkupBuilder) (name : String) (rest : List TgSpan)
    (m : Option Message) :
    parse_fold b (TgSpan.Filling name :: rest) m =
      (let p1 := parse_filling b name m
       let p2 := parse_fold p1.1 rest m
       (p2.1, p1.2 + p2.2)) := by
  cases hx : parse_filling b name m with
  | mk b1 e => rw [parse_fold]; simp [hx]

/-- Resolving a single `Link` span: hint children first, then one
`text_link` entity carrying the url. -/
theorem parse_tgspan_link (b : MarkupBuilder) (s : List TgSpan) (url : String)
    (m : Option Message) :
    parse_tgspan b [TgSpan.Link s url] m =
      ({ (parse_tgspan b s m).1 with entities := (parse_tgspan b s m).1.entities ++
          [{ mkEntity "text_link" (parse_tgspan b s m).2.1 (parse_tgspan b s m).2.2 with
              url := some url }] },
       (parse_tgspan b s m).2.1, (parse_tgspan b s m).2.2) := by
  cases hx : parse_fold b s m with
  | mk b1 e =>
    simp only [parse_tgspan, parse_fold_link, hx, parse_fold, add_zero]

/-! ### Claim theorems -/

/-- C8 (code_bug evidence): the `bot_command` append operation tags its
entity `"botcommand"`, which differs from the kind tag `"bot_command"` the
spec's enumerated set requires. -/
theorem c8_bot_command_tag :
    (MarkupBuilder.new.bot_command "/start").entities = [mkEntity "botcommand" 0 6]
    ∧ "botcommand" ≠ "bot_command" := by
  constructor
  · rfl
  · decide

/-- C1 (code_bug evidence): resolving `"[*[`x]]"` (a Bold span whose child
is a Code span) appends the bold entity at offset 1 with length 0, while
the claimed wrapped-range equality demands offset 0 (the cursor before the
children) and length 1 (`utf16Str "x"`): the `Code` arm of `parse_tgspan`
does not add to `size`. -/
theorem c1_bold_code_child_eval :
    from_murkdown "[*[`x]]" =
      Except.ok { entities := [mkEntity "code" 0 1, mkEntity "bold" 1 0],
                  offset := 1, text := "x" }
    ∧ utf16Str "x" = 1
    ∧ mkEntity "bold" 1 0 ≠ mkEntity "bold" 0 1 := by
  refine ⟨?_, rfl, by decide⟩
  have hp : parseItems (parseFuel (lex ("[*[`x]]" : String).data))
      (lex ("[*[`x]]" : String).data) =
      some ([TgSpan.Bold [TgSpan.Code "x"]], []) := rfl
  simp only [from_murkdown, from_murkdown_internal, hp]
  simp [parse_tgspan, parse_fold_bold, parse_fold, MarkupBuilder.code,
    MarkupBuilder.regular, MarkupBuilder.manual, Markup.get_type, MarkupType.text,
    mkEntity, MarkupBuilder.new, utf16Str, utf16Char]

/-- C10: for each wrapping murkdown span the entities of the children are
appended before the enclosing span's own entity, so the final list is
ordered innermost-first; at `"[*a[_b]]"` the italic entity (offset 1)
precedes the bold entity (offset 0), which is not ascending-offset order. -/
theorem c10_children_entities_first :
    (∀ (b : MarkupBuilder) (s : List TgSpan) (m : Option Message),
      ((parse_tgspan b [TgSpan.Bold s] m).1).entities =
        ((parse_tgspan b s m).1).entities ++
          [mkEntity "bold" (parse_tgspan b s m).2.1 (parse_tgspan b s m).2.2])
    ∧ (∀ (b : MarkupBuilder) (s : List TgSpan) (m : Option Message),
      ((parse_tgspan b [TgSpan.Italic s] m).1).entities =
        ((parse_tgspan b s m).1).entities ++
          [mkEntity "italic" (parse_tgspan b s m).2.1 (parse_tgspan b s m).2.2])
    ∧ (∀ (b : MarkupBuilder) (s : List TgSpan) (m : Option Message),
      ((parse_tgspan b [TgSpan.Underline s] m).1).entities =
        ((parse_tgspan b s m).1).entities ++
          [mkEntity "underline" (parse_tgspan b s m).2.1 (parse_tgspan b s m).2.2])
    ∧ (∀ (b : MarkupBuilder) (s : List TgSpan) (m : Option Message),
      ((parse_tgspan b [TgSpan.Strikethrough s] m).1).entities =
        ((parse_tgspan b s m).1).entities ++
          [mkEntity "strikethrough" (parse_tgspan b s m).2.1 (parse_tgspan b s m).2.2])
    ∧ (∀ (b : MarkupBuilder) (s : List TgSpan) (m : Option Message),
      ((parse_tgspan b [TgSpan.Spoiler s] m).1).entities =
        ((parse_tgspan b s m).1).entities ++
          [mkEntity "spoiler" (parse_tgspan b s m).2.1 (parse_tgspan b s m).2.2])
    ∧ (∀ (b : MarkupBuilder) (s : List TgSpan) (url : String) (m : Option Message),
      ((parse_tgspan b [TgSpan.Link s url] m).1).entities =
        ((parse_tgspan b s m).1).entities ++
          [{ mkEntity "text_link" (parse_tgspan b s m).2.1 (parse_tgspan b s m).2.2 with
              url := some url }])
    ∧ from_murkdown "[*a[_b]]" =
        Except.ok { entities := [mkEntity "italic" 1 1, mkEntity "bold" 0 2],
                    offset := 2, text := "ab" }
    ∧ ¬ List.Sorted (· ≤ ·) ([mkEntity "italic" 1 1, mkEntity "bold" 0 2].map
        MessageEntity.offset) := by
  refine ⟨?_, ?_, ?_, ?_, ?_, ?_, ?_, by decide⟩
  · intro b s m
    rw [parse_fold_wrap TgSpan.Bold "bold" (fun s rest b m => parse_fold_bold b s rest m) b s m]
    simp [MarkupBuilder.manual]
  · intro b s m
    rw [parse_fold_wrap TgSpan.Italic "italic" (fun s rest b m => parse_fold_italic b s rest m) b s m]
    simp [MarkupBuilder.manual]
  · intro b s m
    rw [parse_fold_wrap TgSpan.Underline "underline" (fun s rest b m => parse_fold_underline b s rest m) b s m]
    simp [MarkupBuilder.manual]
  · intro b s m
    rw [parse_fold_wrap TgSpan.Strikethrough "strikethrough" (fun s rest b m => parse_fold_strikethrough b s rest m) b s m]
    simp [MarkupBuilder.manual]
  · intro b s m
    rw [parse_fold_wrap TgSpan.Spoiler "spoiler" (fun s rest b m => parse_fold_spoiler b s rest m) b s m]
    simp [MarkupBuilder.manual]
  · intro b s url m
    rw [parse_tgspan_link b s url m]
  · have hp : parseItems (parseFuel (lex ("[*a[_b]]" : String).data))
        (lex ("[*a[_b]]" : String).data) =
        some ([TgSpan.Bold [TgSpan.Raw "a", TgSpan.Italic [TgSpan.Raw "b"]]], []) := rfl
    simp only [from_murkdown, from_murkdown_internal, hp]
    simp [parse_tgspan, parse_fold_bold, parse_fold_italic, parse_fold,
      MarkupBuilder.textOp, MarkupBuilder.manual, MarkupBuilder.new, mkEntity,
      utf16Str, utf16Char]

/-- The recognized template-field names of Filling resolution. -/
def recognizedFillings : List String :=
  ["username", "first", "last", "mention", "chatname", "id"]

/-- C4: a Filling with an unrecognized name, or any Filling resolved without
a context message, appends the literal placeholder text and no entity, and
resolution succeeds (it is a total function returning the updated builder). -/
theorem c4_filling_degrades_to_literal (b : MarkupBuilder) (name : String)
    (m : Option Message) (h : m = none ∨ name ∉ recognizedFillings) :
    parse_tgspan b [TgSpan.Filling name] m =
      (b.textOp ("\x7b" ++ name ++ "\x7d"), b.offset,
       (utf16Str ("\x7b" ++ name ++ "\x7d") : Int)) := by
  have hf : parse_filling b name m =
      (b.textOp ("\x7b" ++ name ++ "\x7d"), (utf16Str ("\x7b" ++ name ++ "\x7d") : Int)) := by
    rcases h with rfl | hn
    · simp [parse_filling]
    · cases m with
      | none => simp [parse_filling]
      | some msg =>
        simp [recognizedFillings] at hn
        obtain ⟨h1, h2, h3, h4, h5, h6⟩ := hn
        simp [parse_filling, h1, h2, h3, h4, h5, h6]
  simp only [parse_tgspan, parse_fold_filling, hf, parse_fold, add_zero]
  simp [MarkupBuilder.textOp]

/-- Witness for C4 at a concrete unrecognized name with no context. -/
theorem c4_filling_degrades_to_literal_witness :
    parse_tgspan MarkupBuilder.new [TgSpan.Filling "unknown"] none =
      (MarkupBuilder.new.textOp ("\x7b" ++ "unknown" ++ "\x7d"), MarkupBuilder.new.offset,
       (utf16Str ("\x7b" ++ "unknown" ++ "\x7d") : Int)) :=
  c4_filling_degrades_to_literal MarkupBuilder.new "unknown" none (Or.inl rfl)

/-- C9: with a context message whose sender is absent, the recognized
fillings `username`, `first`, `last`, `mention` and `id` append nothing at
all (builder unchanged, size 0), while `chatname` still appends the chat
display name. -/
theorem c9_no_sender_fillings_silent (b : MarkupBuilder) (msg : Message)
    (h : msg.get_from = none) :
    parse_tgspan b [TgSpan.Filling "username"] (some msg) = (b, b.offset, 0)
    ∧ parse_tgspan b [TgSpan.Filling "first"] (some msg) = (b, b.offset, 0)
    ∧ parse_tgspan b [TgSpan.Filling "last"] (some msg) = (b, b.offset, 0)
    ∧ parse_tgspan b [TgSpan.Filling "mention"] (some msg) = (b, b.offset, 0)
    ∧ parse_tgspan b [TgSpan.Filling "id"] (some msg) = (b, b.offset, 0)
    ∧ parse_tgspan b [TgSpan.Filling "chatname"] (some msg) =
        (b.textOp msg.get_chat.name_humanreadable, b.offset,
         (utf16Str msg.get_chat.name_humanreadable : Int)) := by
  refine ⟨?_, ?_, ?_, ?_, ?_, ?_⟩ <;>
    simp only [parse_tgspan, parse_fold_filling, parse_fold, add_zero] <;>
    simp [parse_filling, h, MarkupBuilder.textOp]

/-- Witness for C9 at a concrete message with no sender. -/
theorem c9_no_sender_fillings_silent_witness :
    parse_tgspan MarkupBuilder.new [TgSpan.Filling "username"]
      (some { get_from := none, get_chat := { id := 5, title := "c" } }) =
      (MarkupBuilder.new, MarkupBuilder.new.offset, 0) :=
  (c9_no_sender_fillings_silent MarkupBuilder.new
    { get_from := none, get_chat := { id := 5, title := "c" } } rfl).1

/-! ### Builder append-operation sequences (claim C2) -/

/-- One constructor per public append operation of `MarkupBuilder`
(plain text, literal space, and every entity-appending method including
the advance-override-taking ones). -/
inductive BuildOp where
  | text (t : String)
  | s
  | regular (m : Markup)
  | text_link (t url : String) (advance : Option Int)
  | text_mention (t : String) (user : User) (advance : Option Int)
  | pre (t language : String) (advance : Option Int)
  | custom_emoji (t emoji_id : String) (advance : Option Int)
  | strikethrough (t : String)
  | hashtag (t : String)
  | cashtag (t : String)
  | bot_command (t : String)
  | email (t : String)
  | phone_number (t : String)
  | bold (t : String)
  | italic (t : String)
  | underline (t : String)
  | spoiler (t : String)
  | code (t : String)
  | mention (t : String)
deriving Repr, DecidableEq

/-- Interpretation of one append operation on a builder state. -/
def applyOp (b : MarkupBuilder) : BuildOp → MarkupBuilder
  | BuildOp.text t => b.textOp t
  | BuildOp.s => b.s
  | BuildOp.regular m => b.regular m
  | BuildOp.text_link t url a => b.text_link t url a
  | BuildOp.text_mention t u a => b.text_mention t u a
  | BuildOp.pre t l a => b.pre t l a
  | BuildOp.custom_emoji t e a => b.custom_emoji t e a
  | BuildOp.strikethrough t => b.strikethrough t
  | BuildOp.hashtag t => b.hashtag t
  | BuildOp.cashtag t => b.cashtag t
  | BuildOp.bot_command t => b.bot_command t
  | BuildOp.email t => b.email t
  | BuildOp.phone_number t => b.phone_number t
  | BuildOp.bold t => b.bold t
  | BuildOp.italic t => b.italic t
  | BuildOp.underline t => b.underline t
  | BuildOp.spoiler t => b.spoiler t
  | BuildOp.code t => b.code t
  | BuildOp.mention t => b.mention t

/-- A sequence of append operations applied to a builder. -/
def applyOps (b : MarkupBuilder) (ops : List BuildOp) : MarkupBuilder :=
  ops.foldl applyOp b

/-- An operation whose advance override, when supplied, equals the UTF-16
length of the text it appends (operations without an override always
qualify). -/
def advanceConsistent : BuildOp → Prop
  | BuildOp.regular m => m.advance = none ∨ m.advance = some (utf16Str m.text)
  | BuildOp.text_link t _ a => a = none ∨ a = some (utf16Str t)
  | BuildOp.text_mention t _ a => a = none ∨ a = some (utf16Str t)
  | BuildOp.pre t _ a => a = none ∨ a = some (utf16Str t)
  | BuildOp.custom_emoji t _ a => a = none ∨ a = some (utf16Str t)
  | _ => True

/-- UTF-16 length distributes over string append. -/
theorem utf16Str_append (s t : String) : utf16Str (s ++ t) = utf16Str s + utf16Str t := by
  cases s with
  | mk a =>
    cases t with
    | mk b =>
      show (List.map utf16Char (a ++ b)).sum = _
      simp [utf16Str]

/-- A `regular` append with a consistent advance preserves the cursor
invariant. -/
theorem regular_preserves_cursor (b : MarkupBuilder) (m : Markup)
    (hm : m.advance = none ∨ m.advance = some (utf16Str m.text))
    (hb : b.offset = (utf16Str b.text : Int)) :
    (b.regular m).offset = (utf16Str (b.regular m).text : Int) := by
  rcases hm with hm | hm <;> simp [MarkupBuilder.regular, hm, hb, utf16Str_append]

/-- Any single advance-consistent append preserves the cursor invariant. -/
theorem applyOp_preserves_cursor (b : MarkupBuilder) (op : BuildOp)
    (hop : advanceConsistent op) (hb : b.offset = (utf16Str b.text : Int)) :
    (applyOp b op).offset = (utf16Str (applyOp b op).text : Int) := by
  cases op with
  | text t => simp [applyOp, MarkupBuilder.textOp, hb, utf16Str_append]
  | s => simp [applyOp, MarkupBuilder.s, hb, utf16Str_append]
  | regular m => exact regular_preserves_cursor b m hop hb
  | text_link t url a =>
    rcases hop with h | h <;> simp [applyOp, MarkupBuilder.text_link, h, hb, utf16Str_append]
  | text_mention t u a =>
    rcases hop with h | h <;> simp [applyOp, MarkupBuilder.text_mention, h, hb, utf16Str_append]
  | pre t l a =>
    rcases hop with h | h <;> simp [applyOp, MarkupBuilder.pre, h, hb, utf16Str_append]
  | custom_emoji t e a =>
    rcases hop with h | h <;> simp [applyOp, MarkupBuilder.custom_emoji, h, hb, utf16Str_append]
  | strikethrough t =>
    exact regular_preserves_cursor b _ (Or.inl rfl) hb
  | hashtag t => exact regular_preserves_cursor b _ (Or.inl rfl) hb
  | cashtag t => exact regular_preserves_cursor b _ (Or.inl rfl) hb
  | bot_command t => exact regular_preserves_cursor b _ (Or.inl rfl) hb
  | email t => exact regular_preserves_cursor b _ (Or.inl rfl) hb
  | phone_number t => exact regular_preserves_cursor b _ (Or.inl rfl) hb
  | bold t => exact regular_preserves_cursor b _ (Or.inl rfl) hb
  | italic t => exact regular_preserves_cursor b _ (Or.inl rfl) hb
  | underline t => exact regular_preserves_cursor b _ (Or.inl rfl) hb
  | spoiler t => exact regular_preserves_cursor b _ (Or.inl rfl) hb
  | code t => exact regular_preserves_cursor b _ (Or.inl rfl) hb
  | mention t => exact regular_preserves_cursor b _ (Or.inl rfl) hb

/-- C2 counterexample: an append with an advance override different from
the appended text's UTF-16 length (here `text_link` with override 5 over
the 2-unit text `"ab"`) breaks `cursor = UTF16Length(text)`, refuting the
claim for arbitrary append sequences. -/
theorem c2_advance_override_counterexample :
    ¬ ((applyOps MarkupBuilder.new [BuildOp.text_link "ab" "url" (some 5)]).offset =
       (utf16Str (applyOps MarkupBuilder.new
          [BuildOp.text_link "ab" "url" (some 5)]).text : Int)) := by
  decide

/-- C2 (amended): after any sequence of append operations whose advance
overrides (if supplied) equal the UTF-16 length of their appended text —
in particular any sequence that uses no override at all — the cursor
equals the UTF-16 length of the accumulated text. -/
theorem c2_cursor_invariant (ops : List BuildOp)
    (h : ∀ op ∈ ops, advanceConsistent op) :
    (applyOps MarkupBuilder.new ops).offset =
      (utf16Str (applyOps MarkupBuilder.new ops).text : Int) := by
  have H : ∀ (l : List BuildOp), (∀ op ∈ l, advanceConsistent op) →
      ∀ b, b.offset = (utf16Str b.text : Int) →
      (applyOps b l).offset = (utf16Str (applyOps b l).text : Int) := by
    intro l
    induction l with
    | nil => intro _ b hb; simpa [applyOps]
    | cons op rest ih =>
      intro hl b hb
      have h1 := hl op (List.mem_cons_self op rest)
      have h2 : ∀ o ∈ rest, advanceConsistent o :=
        fun o ho => hl o (List.mem_cons_of_mem op ho)
      simp only [applyOps, List.foldl_cons]
      exact ih h2 (applyOp b op) (applyOp_preserves_cursor b op h1 hb)
  exact H ops h MarkupBuilder.new (by simp [MarkupBuilder.new, utf16Str])

/-- Witness for C2 at a concrete operation sequence (including an astral
character, a consistent override, and several entity kinds). -/
theorem c2_cursor_invariant_witness :
    (applyOps MarkupBuilder.new
      [BuildOp.text "a😀", BuildOp.bold "x", BuildOp.s,
       BuildOp.text_link "ab" "u" none,
       BuildOp.text_mention "m"
         { id := 1, first_name := "f", last_name := none, username := none, is_bot := false }
         (some (utf16Str "m"))]).offset =
      (utf16Str (applyOps MarkupBuilder.new
        [BuildOp.text "a😀", BuildOp.bold "x", BuildOp.s,
         BuildOp.text_link "ab" "u" none,
         BuildOp.text_mention "m"
           { id := 1, first_name := "f", last_name := none, username := none, is_bot := false }
           (some (utf16Str "m"))]).text : Int) := by
  apply c2_cursor_invariant
  intro op hop
  fin_cases hop <;> simp [advanceConsistent]

/-! ### Lexer case equations and totality (claim C5) -/

/-- Characterization of the lex steps that produce no token: only the empty
input, a trailing escape backslash, or skipped trailing bars. -/
theorem next_token_none_iff :
    ∀ cs, next_token cs = none ↔
      (cs = [] ∨ cs = ['\\'] ∨ cs = ['|'] ∨ cs = ['|', '\\']) := by
  intro cs
  induction cs with
  | nil => simp [next_token]
  | cons c cs ih =>
    by_cases h1 : c = '\\'
    · subst h1
      cases cs with
      | nil => simp [next_token]
      | cons c2 rest2 => simp [next_token]
    · by_cases h2 : c = '_'
      · subst h2
        cases cs with
        | nil => simp [next_token]
        | cons c2 rest2 =>
          by_cases hc2 : c2 = '_' <;> simp [next_token, hc2]
      · by_cases h3 : c = '|'
        · subst h3
          cases cs with
          | nil => simp [next_token]
          | cons c2 rest2 =>
            by_cases hc2 : c2 = '|'
            · subst hc2
              simp [next_token]
            · rw [show next_token ('|' :: c2 :: rest2) = next_token (c2 :: rest2) by
                simp [next_token, hc2]]
              rw [ih]
              simp [hc2]
        · rw [next_token_simple c cs h1 h2 h3]
          cases hst : simpleToken c <;> simp [h1, h3]

/-- C5: the lexer is total — every character maps to some token (escape
pairs, underscore doubling, bar skipping/doubling, the nine dedicated
markers, and the literal fallback behave exactly as claimed), each
produced token strictly consumes input, and the only inputs yielding no
token are empty or consist solely of skipped trailing material. -/
theorem c5_lexer_total_cases :
    (∀ c cs, next_token ('\\' :: c :: cs) = some (Token.RawChar c, cs))
    ∧ (∀ cs, next_token ('_' :: '_' :: cs) = some (Token.DoubleUnderscore, cs))
    ∧ (∀ c cs, c ≠ '_' → next_token ('_' :: c :: cs) = some (Token.Underscore, c :: cs))
    ∧ next_token ['_'] = some (Token.Underscore, [])
    ∧ (∀ cs, next_token ('|' :: '|' :: cs) = some (Token.DoubleBar, cs))
    ∧ (∀ c cs, c ≠ '|' → next_token ('|' :: c :: cs) = next_token (c :: cs))
    ∧ (∀ cs, next_token ('~' :: cs) = some (Token.Tilde, cs))
    ∧ (∀ cs, next_token ('`' :: cs) = some (Token.Tick, cs))
    ∧ (∀ cs, next_token ('*' :: cs) = some (Token.Star, cs))
    ∧ (∀ cs, next_token ('[' :: cs) = some (Token.LSBracket, cs))
    ∧ (∀ cs, next_token (']' :: cs) = some (Token.RSBracket, cs))
    ∧ (∀ cs, next_token ('(' :: cs) = some (Token.LParen, cs))
    ∧ (∀ cs, next_token (')' :: cs) = some (Token.RParen, cs))
    ∧ (∀ cs, next_token ('{' :: cs) = some (Token.LCurly, cs))
    ∧ (∀ cs, next_token ('}' :: cs) = some (Token.RCurly, cs))
    ∧ (∀ c cs, c ≠ '\\' → c ≠ '_' → c ≠ '|' → c ≠ '~' → c ≠ '`' → c ≠ '*' → c ≠ '[' →
        c ≠ ']' → c ≠ '(' → c ≠ ')' → c ≠ '{' → c ≠ '}' →
        next_token (c :: cs) = some (Token.RawChar c, cs))
    ∧ (∀ cs t rest, next_token cs = some (t, rest) → rest.length < cs.length)
    ∧ (∀ cs, next_token cs = none ↔
        (cs = [] ∨ cs = ['\\'] ∨ cs = ['|'] ∨ cs = ['|', '\\'])) := by
  refine ⟨?_, ?_, ?_, ?_, ?_, ?_, ?_, ?_, ?_, ?_, ?_, ?_, ?_, ?_, ?_, ?_,
    next_token_progress, next_token_none_iff⟩
  · intro c cs; simp [next_token]
  · intro cs; simp [next_token]
  · intro c cs h; simp [next_token, h]
  · simp [next_token]
  · intro cs; simp [next_token]
  · intro c cs h; simp [next_token, h]
  · intro cs
    rw [next_token_simple '~' cs (by decide) (by decide) (by decide)]; rfl
  · intro cs
    rw [next_token_simple '`' cs (by decide) (by decide) (by decide)]; rfl
  · intro cs
    rw [next_token_simple '*' cs (by decide) (by decide) (by decide)]; rfl
  · intro cs
    rw [next_token_simple '[' cs (by decide) (by decide) (by decide)]; rfl
  · intro cs
    rw [next_token_simple ']' cs (by decide) (by decide) (by decide)]; rfl
  · intro cs
    rw [next_token_simple '(' cs (by decide) (by decide) (by decide)]; rfl
  · intro cs
    rw [next_token_simple ')' cs (by decide) (by decide) (by decide)]; rfl
  · intro cs
    rw [next_token_simple '{' cs (by decide) (by decide) (by decide)]; rfl
  · intro cs
    rw [next_token_simple '}' cs (by decide) (by decide) (by decide)]; rfl
  · intro c cs h1 h2 h3 h4 h5 h6 h7 h8 h9 h10 h11 h12
    rw [next_token_simple c cs h1 h2 h3]
    simp [simpleToken, h4, h5, h6, h7, h8, h9, h10, h11, h12]

/-- Witness for C5 at concrete characters. -/
theorem c5_lexer_total_cases_witness :
    next_token ('\\' :: 'a' :: []) = some (Token.RawChar 'a', [])
    ∧ next_token ('_' :: 'a' :: []) = some (Token.Underscore, ['a'])
    ∧ next_token ('|' :: 'a' :: []) = next_token ['a']
    ∧ next_token ('x' :: []) = some (Token.RawChar 'x', [])
    ∧ ([] : List Char).length < (['~'] : List Char).length
    ∧ (next_token ['|'] = none ↔
        (['|'] = ([] : List Char) ∨ ['|'] = ['\\'] ∨ ['|'] = ['|'] ∨ ['|'] = ['|', '\\'])) := by
  obtain ⟨e1, -, e3, -, -, e6, m1, -, -, -, -, -, -, -, -, other, prog, noneiff⟩ :=
    c5_lexer_total_cases
  refine ⟨e1 'a' [], e3 'a' [] (by decide), e6 'a' [] (by decide), ?_, ?_, noneiff ['|']⟩
  · exact other 'x' [] (by decide) (by decide) (by decide) (by decide) (by decide)
      (by decide) (by decide) (by decide) (by decide) (by decide) (by decide) (by decide)
  · exact prog ['~'] Token.Tilde [] (m1 [])

/-! ### Marker-free sources (claim C6) -/

/-- The markup marker characters (those with dedicated lexer treatment
besides the escape backslash). -/
def isMarkerChar (c : Char) : Bool :=
  c = '_' || c = '|' || c = '~' || c = '`' || c = '*' || c = '[' || c = ']' ||
  c = '(' || c = ')' || c = '{' || c = '}'

/-- A source contains no unescaped markup marker characters: every marker
occurrence is immediately preceded by an escape backslash. -/
def noUnescapedMarkers : List Char → Bool
  | [] => true
  | c :: rest =>
    if c = '\\' then
      match rest with
      | [] => true
      | _ :: rest2 => noUnescapedMarkers rest2
    else !(isMarkerChar c) && noUnescapedMarkers rest

/-- The source with escape backslashes removed (each backslash is dropped
and the character it escapes kept literally). -/
def removeEscapes : List Char → List Char
  | [] => []
  | c :: rest =>
    if c = '\\' then
      match rest with
      | [] => []
      | c2 :: rest2 => c2 :: removeEscapes rest2
    else c :: removeEscapes rest

/-- A non-escape non-marker character lexes to its literal token. -/
theorem next_token_raw_of_not_marker (c : Char) (cs : List Char)
    (h1 : c ≠ '\\') (hm : isMarkerChar c = false) :
    next_token (c :: cs) = some (Token.RawChar c, cs) := by
  have h2 : ¬ c = '_' := fun e => by subst e; simp [isMarkerChar] at hm
  have h3 : ¬ c = '|' := fun e => by subst e; simp [isMarkerChar] at hm
  have hst : simpleToken c = none := by
    unfold simpleToken
    split_ifs with a1 a2 a3 a4 a5 a6 a7 a8 a9 <;>
      first
        | rfl
        | (subst_vars; simp [isMarkerChar] at hm)
  rw [next_token_simple c cs h1 h2 h3, hst]

/-- On a source with no unescaped markers the lexer produces exactly the
literal tokens of the escape-stripped characters. -/
theorem lexFuel_noMarkers :
    ∀ f cs, cs.length < f → noUnescapedMarkers cs = true →
      lexFuel f cs = (removeEscapes cs).map Token.RawChar := by
  intro f
  induction f with
  | zero => intro cs h; omega
  | succ f ih =>
    intro cs hf h
    cases cs with
    | nil => simp [lexFuel, next_token, removeEscapes]
    | cons c rest =>
      by_cases h1 : c = '\\'
      · subst h1
        cases rest with
        | nil => simp [lexFuel, next_token, removeEscapes]
        | cons c2 rest2 =>
          have h2 : noUnescapedMarkers rest2 = true := by
            simpa [noUnescapedMarkers] using h
          have hnext : next_token ('\\' :: c2 :: rest2) = some (Token.RawChar c2, rest2) := by
            simp [next_token]
          simp only [lexFuel, hnext]
          rw [ih rest2 (by simp at hf ⊢; omega) h2]
          simp [removeEscapes]
      · have hm : isMarkerChar c = false ∧ noUnescapedMarkers rest = true := by
          have h' := h
          rw [noUnescapedMarkers.eq_def] at h'
          simp [h1] at h'
          exact h'
        have hnext := next_token_raw_of_not_marker c rest h1 hm.1
        simp only [lexFuel, hnext]
        rw [ih rest (by simp at hf ⊢; omega) hm.2]
        rw [show removeEscapes (c :: rest) = c :: removeEscapes rest from by
          rw [removeEscapes.eq_def]; simp [h1]]
        simp

/-- `lex` form of `lexFuel_noMarkers`. -/
theorem lex_noMarkers (cs : List Char) (h : noUnescapedMarkers cs = true) :
    lex cs = (removeEscapes cs).map Token.RawChar :=
  lexFuel_noMarkers (cs.length + 1) cs (by omega) h

/-- `takeRawChars` consumes an entire literal-token stream. -/
theorem takeRawChars_map :
    ∀ ds : List Char, takeRawChars (ds.map Token.RawChar) = (ds, []) := by
  intro ds
  induction ds with
  | nil => rfl
  | cons d ds ih => simp [takeRawChars, ih]

/-- `parseItems` accepts the empty stream immediately. -/
theorem parseItems_nil (f : Nat) : parseItems (f + 1) [] = some ([], []) := by
  rfl

/-- `parseItems` reduces a nonempty all-literal stream to a single Raw span
(the base `words ::= raw` production). -/
theorem parseItems_raw_run (f : Nat) (d : Char) (ds : List Char) (hf : 1 ≤ f) :
    parseItems (f + 1) ((d :: ds).map Token.RawChar) =
      some ([TgSpan.Raw (String.mk (d :: ds))], []) := by
  obtain ⟨g, rfl⟩ : ∃ g, f = g + 1 := ⟨f - 1, by omega⟩
  simp [parseItems, takeRawChars_map]

/-- `from_murkdown_internal` factored through `murk_parse`. -/
theorem from_murkdown_internal_eq (s : String) (m : Option Message) :
    from_murkdown_internal s m =
      (match murk_parse s with
       | some (res, []) => Except.ok (parse_tgspan MarkupBuilder.new res m).1
       | _ => Except.error {}) := rfl

/-- C6: a murkdown source with no unescaped marker characters parses
successfully; the resolved output is the source text with escape
backslashes removed and an empty entity list, and (when the stripped text
is nonempty) the parse is the single Raw span of that text. -/
theorem c6_marker_free_literal (s : String) (h : noUnescapedMarkers s.data = true) :
    from_murkdown s = Except.ok
      { entities := [], offset := (utf16Str (String.mk (removeEscapes s.data)) : Int),
        text := String.mk (removeEscapes s.data) }
    ∧ (removeEscapes s.data ≠ [] →
        murk_parse s = some ([TgSpan.Raw (String.mk (removeEscapes s.data))], [])) := by
  have hlex : lex s.data = (removeEscapes s.data).map Token.RawChar := lex_noMarkers _ h
  have hparse : murk_parse s =
      some (if removeEscapes s.data = [] then [] else
        [TgSpan.Raw (String.mk (removeEscapes s.data))], []) := by
    unfold murk_parse
    rw [hlex]
    cases hd : removeEscapes s.data with
    | nil => simp [parseFuel, parseItems_nil]
    | cons d ds =>
      simp only [parseFuel, List.length_map, List.length_cons]
      have := parseItems_raw_run (2 * (ds.length + 1) + 1) d ds (by omega)
      simpa using this
  constructor
  · show from_murkdown_internal s none = _
    rw [from_murkdown_internal_eq, hparse]
    cases hd : removeEscapes s.data with
    | nil =>
      simp [hd, parse_tgspan, parse_fold, MarkupBuilder.new, utf16Str]
    | cons d ds =>
      simp only [hd, reduceCtorEq, if_false, ite_false, if_neg]
      have hone : parse_fold MarkupBuilder.new [TgSpan.Raw (String.mk (d :: ds))] none =
          (MarkupBuilder.new.textOp (String.mk (d :: ds)),
           (utf16Str (String.mk (d :: ds)) : Int)) := by
        rw [parse_fold]
        simp [parse_fold]
      show Except.ok (parse_tgspan MarkupBuilder.new [TgSpan.Raw (String.mk (d :: ds))] none).1 = _
      rw [parse_tgspan, hone]
      show Except.ok (MarkupBuilder.new.textOp (String.mk (d :: ds))) = _
      rw [show MarkupBuilder.new.textOp (String.mk (d :: ds)) =
          { entities := [], offset := (utf16Str (String.mk (d :: ds)) : Int),
            text := String.mk (d :: ds) } from by
        simp [MarkupBuilder.textOp, MarkupBuilder.new]]
  · intro hne
    rw [hparse, if_neg hne]

/-- Witness for C6 at the escaped-bracket example source. -/
theorem c6_marker_free_literal_witness :
    noUnescapedMarkers ("\\[ thing" : String).data = true
    ∧ String.mk (removeEscapes ("\\[ thing" : String).data) = "[ thing"
    ∧ from_murkdown "\\[ thing" = Except.ok
        { entities := [],
          offset := (utf16Str (String.mk (removeEscapes ("\\[ thing" : String).data)) : Int),
          text := String.mk (removeEscapes ("\\[ thing" : String).data) }
    ∧ murk_parse "\\[ thing" =
        some ([TgSpan.Raw (String.mk (removeEscapes ("\\[ thing" : String).data))], []) := by
  have h : noUnescapedMarkers ("\\[ thing" : String).data = true := by decide
  exact ⟨h, rfl, (c6_marker_free_literal "\\[ thing" h).1,
    (c6_marker_free_literal "\\[ thing" h).2 (by decide)⟩

/-! ### Parser soundness with respect to the grammar (claim C3) -/

/-- The head of a span list is not a Raw span (vacuously true for `[]`). -/
def headNotRaw : List TgSpan → Prop
  | TgSpan.Raw _ :: _ => False
  | _ => True

/-- `takeRawChars` splits off exactly a maximal literal-token prefix. -/
theorem takeRawChars_spec :
    ∀ ts cs rest, takeRawChars ts = (cs, rest) →
      ts = cs.map Token.RawChar ++ rest ∧ ∀ c, rest.head? ≠ some (Token.RawChar c) := by
  intro ts
  induction ts with
  | nil =>
    intro cs rest h
    simp [takeRawChars] at h
    obtain ⟨rfl, rfl⟩ := h
    exact ⟨by simp, by simp⟩
  | cons t ts ih =>
    intro cs rest h
    cases t
    case RawChar c =>
      cases hx : takeRawChars ts with
      | mk cs' rest' =>
        simp [takeRawChars, hx] at h
        obtain ⟨rfl, rfl⟩ := h
        obtain ⟨he, hh⟩ := ih cs' rest' hx
        exact ⟨by simp [he], hh⟩
    all_goals
      simp only [takeRawChars] at h
      obtain ⟨rfl, rfl⟩ := h
      exact ⟨by simp, by simp⟩

/-- Every nonempty character run is a `raw` derivation. -/
theorem DRaw_of_chars (c : Char) (cs : List Char) :
    DRaw ((c :: cs).map Token.RawChar) (String.mk (c :: cs)) := by
  induction cs using List.reverseRecOn with
  | nil => exact DRaw.single c
  | append_singleton ds d ih =>
    have : (c :: (ds ++ [d])).map Token.RawChar =
        ((c :: ds).map Token.RawChar) ++ [Token.RawChar d] := by simp
    rw [this]
    have hpush : String.mk (c :: (ds ++ [d])) = (String.mk (c :: ds)).push d := rfl
    rw [hpush]
    exact DRaw.push _ _ d ih

/-- `word` derivations produce exactly one span, and never a Raw span. -/
theorem Deriv_word_shape {ts : List Token} {W : List TgSpan}
    (h : Deriv NT.word ts W) : ∃ w, W = [w] ∧ (∀ s, w ≠ TgSpan.Raw s) := by
  cases h <;> exact ⟨_, rfl, by intro s hs; cases hs⟩

/-- `words` derivations produce a nonempty span list. -/
theorem Deriv_words_ne_nil {ts : List Token} {sp : List TgSpan}
    (h : Deriv NT.words ts sp) : sp ≠ [] := by
  cases h with
  | words_app t1 t2 L W hw hword =>
    obtain ⟨w, rfl, -⟩ := Deriv_word_shape hword
    simp
  | words_appwr t1 t2 t3 L W r hw hword hraw => simp
  | words_wr t1 t2 W r hword hraw => simp
  | words_word ts W hword =>
    obtain ⟨w, rfl, -⟩ := Deriv_word_shape hword
    simp
  | words_raw ts r hraw => simp

/-- A `main` derivation of the empty span list consumes no tokens. -/
theorem Deriv_main_nil {ts : List Token} (h : Deriv NT.main ts []) : ts = [] := by
  cases h with
  | main_empty => rfl
  | main_words ts sp hw => exact absurd rfl (Deriv_words_ne_nil hw)

/-- A word derivation can be prepended to a `words` derivation. -/
theorem Deriv_words_prepend_word :
    ∀ {nt t2 sp}, Deriv nt t2 sp → nt = NT.words →
      ∀ t1 w, Deriv NT.word t1 [w] → Deriv NT.words (t1 ++ t2) (w :: sp) := by
  intro nt t2 sp h
  induction h with
  | filling ts s hr => intro he; simp at he
  | code ts s hr => intro he; simp at he
  | bold ts sp hm => intro he; simp at he
  | link ts sp us u hm hr => intro he; simp at he
  | strike ts sp hw => intro he; simp at he
  | italic ts sp hm => intro he; simp at he
  | underline ts sp hm => intro he; simp at he
  | spoiler ts sp hm => intro he; simp at he
  | main_empty => intro he; simp at he
  | main_words ts sp hw => intro he; simp at he
  | words_app t1 t2 L W hw hword ihw ihword =>
    intro _ s1 w hw1
    have h1 := ihw rfl s1 w hw1
    have := Deriv.words_app (s1 ++ t1) t2 (w :: L) W h1 hword
    simpa [List.append_assoc] using this
  | words_appwr t1 t2 t3 L W r hw hword hraw ihw ihword =>
    intro _ s1 w hw1
    have h1 := ihw rfl s1 w hw1
    have := Deriv.words_appwr (s1 ++ t1) t2 t3 (w :: L) W r h1 hword hraw
    simpa [List.append_assoc] using this
  | words_wr t1 t2 W r hword hraw ihword =>
    intro _ s1 w hw1
    have := Deriv.words_appwr s1 t1 t2 [w] W r
      (Deriv.words_word s1 [w] hw1) hword hraw
    simpa [List.append_assoc] using this
  | words_word ts W hword ihword =>
    intro _ s1 w hw1
    have := Deriv.words_app s1 ts [w] W (Deriv.words_word s1 [w] hw1) hword
    simpa using this
  | words_raw ts r hraw =>
    intro _ s1 w hw1
    have := Deriv.words_wr s1 ts [w] r hw1 hraw
    simpa using this

/-- A word derivation can be prepended to a `main` derivation. -/
theorem Deriv_main_prepend_word {t1 t2 : List Token} {w : TgSpan} {sp : List TgSpan}
    (h1 : Deriv NT.word t1 [w]) (h2 : Deriv NT.main t2 sp) :
    Deriv NT.main (t1 ++ t2) (w :: sp) := by
  cases h2 with
  | main_empty =>
    simpa using Deriv.main_words t1 [w] (Deriv.words_word t1 [w] h1)
  | main_words ts2 sp2 hw =>
    exact Deriv.main_words _ _ (Deriv_words_prepend_word hw rfl t1 w h1)

/-- A raw derivation can be prepended to a `words` derivation whose first
span is not Raw. -/
theorem Deriv_words_prepend_raw :
    ∀ {nt t2 sp}, Deriv nt t2 sp → nt = NT.words →
      ∀ t1 r, DRaw t1 r → headNotRaw sp →
        Deriv NT.words (t1 ++ t2) (TgSpan.Raw r :: sp) := by
  intro nt t2 sp h
  induction h with
  | filling ts s hr => intro he; simp at he
  | code ts s hr => intro he; simp at he
  | bold ts sp hm => intro he; simp at he
  | link ts sp us u hm hr => intro he; simp at he
  | strike ts sp hw => intro he; simp at he
  | italic ts sp hm => intro he; simp at he
  | underline ts sp hm => intro he; simp at he
  | spoiler ts sp hm => intro he; simp at he
  | main_empty => intro he; simp at he
  | main_words ts sp hw => intro he; simp at he
  | words_app t1 t2 L W hw hword ihw ihword =>
    intro _ s1 r hr hh
    have hLne : L ≠ [] := Deriv_words_ne_nil hw
    have hhL : headNotRaw L := by
      cases L with
      | nil => exact absurd rfl hLne
      | cons a L' =>
        cases a <;> simp_all [headNotRaw]
    have h1 := ihw rfl s1 r hr hhL
    have := Deriv.words_app (s1 ++ t1) t2 (TgSpan.Raw r :: L) W h1 hword
    simpa [List.append_assoc] using this
  | words_appwr t1 t2 t3 L W r0 hw hword hraw ihw ihword =>
    intro _ s1 r hr hh
    have hLne : L ≠ [] := Deriv_words_ne_nil hw
    have hhL : headNotRaw L := by
      cases L with
      | nil => exact absurd rfl hLne
      | cons a L' =>
        cases a <;> simp_all [headNotRaw]
    have h1 := ihw rfl s1 r hr hhL
    have := Deriv.words_appwr (s1 ++ t1) t2 t3 (TgSpan.Raw r :: L) W r0 h1 hword hraw
    simpa [List.append_assoc] using this
  | words_wr t1 t2 W r0 hword hraw ihword =>
    intro _ s1 r hr hh
    have := Deriv.words_appwr s1 t1 t2 [TgSpan.Raw r] W r0
      (Deriv.words_raw s1 r hr) hword hraw
    simpa [List.append_assoc] using this
  | words_word ts W hword ihword =>
    intro _ s1 r hr hh
    have := Deriv.words_app s1 ts [TgSpan.Raw r] W (Deriv.words_raw s1 r hr) hword
    simpa using this
  | words_raw ts r0 hraw =>
    intro _ s1 r hr hh
    exact absurd hh (by simp [headNotRaw])

/-- A raw derivation can be prepended to a `main` derivation whose first
span is not Raw. -/
theorem Deriv_main_prepend_raw {t1 t2 : List Token} {r : String} {sp : List TgSpan}
    (h1 : DRaw t1 r) (h2 : Deriv NT.main t2 sp) (hh : headNotRaw sp) :
    Deriv NT.main (t1 ++ t2) (TgSpan.Raw r :: sp) := by
  cases h2 with
  | main_empty =>
    simpa using Deriv.main_words t1 [TgSpan.Raw r] (Deriv.words_raw t1 r h1)
  | main_words ts2 sp2 hw =>
    exact Deriv.main_words _ _ (Deriv_words_prepend_raw hw rfl t1 r h1 hh)

/-- The bracket-body parser never returns a Raw span. -/
theorem parseBracket_not_raw :
    ∀ f ts s rest, parseBracket f ts ≠ some (TgSpan.Raw s, rest) := by
  intro f ts s rest h
  cases f with
  | zero => simp [parseBracket] at h
  | succ f =>
    cases ts with
    | nil =>
      simp only [parseBracket] at h
      repeat' split at h
      all_goals simp_all
    | cons t ts' =>
      cases t <;>
        (simp only [parseBracket] at h
         repeat' split at h
         all_goals simp_all)

/-- If the input does not begin with a literal token, a successful
`parseItems` result does not begin with a Raw span. -/
theorem parseItems_head_not_raw :
    ∀ f ts sp rest, parseItems f ts = some (sp, rest) →
      (∀ c, ts.head? ≠ some (Token.RawChar c)) → headNotRaw sp := by
  intro f ts sp rest h hh
  cases f with
  | zero => simp [parseItems] at h
  | succ f =>
    cases ts with
    | nil =>
      rw [parseItems_nil] at h
      simp at h
      obtain ⟨rfl, rfl⟩ := h
      simp [headNotRaw]
    | cons t ts' =>
      cases t
      case RawChar c => exact (hh c (by simp)).elim
      case LCurly =>
        simp only [parseItems] at h
        repeat' split at h
        all_goals (try simp at h)
        all_goals (obtain ⟨rfl, rfl⟩ := h; simp [headNotRaw])
      case LSBracket =>
        simp only [parseItems] at h
        split at h
        · rename_i w rest' heq
          split at h
          · rename_i sp1 rest'' heq2
            simp at h
            obtain ⟨rfl, rfl⟩ := h
            cases w
            case Raw s => exact absurd heq (parseBracket_not_raw f ts' s rest')
            all_goals simp [headNotRaw]
          · simp at h
        · simp at h
      all_goals
        (simp only [parseItems] at h
         simp at h
         obtain ⟨rfl, rfl⟩ := h
         simp [headNotRaw])

/-- Soundness of the executable parser with respect to the grammar: every
successful parse of a prefix is a derivation of that prefix (jointly for
`parseItems`/`main` and `parseBracket`/bracketed `word` bodies). -/
theorem parse_sound :
    ∀ f : Nat,
      (∀ ts sp rest, parseItems f ts = some (sp, rest) →
        ∃ pre, ts = pre ++ rest ∧ Deriv NT.main pre sp)
      ∧ (∀ ts w rest, parseBracket f ts = some (w, rest) →
        ∃ pre, ts = pre ++ rest ∧ Deriv NT.word (Token.LSBracket :: pre) [w]) := by
  intro f
  induction f with
  | zero =>
    constructor
    · intro ts sp rest h; simp [parseItems] at h
    · intro ts w rest h; simp [parseBracket] at h
  | succ f ih =>
    obtain ⟨ihA, ihB⟩ := ih
    constructor
    · intro ts sp rest h
      cases ts with
      | nil =>
        rw [parseItems_nil] at h
        simp at h
        obtain ⟨rfl, rfl⟩ := h
        exact ⟨[], by simp, Deriv.main_empty⟩
      | cons t ts' =>
        cases t
        case RawChar c =>
          simp only [parseItems] at h
          cases htr : takeRawChars ts' with
          | mk cs rest' =>
            rw [htr] at h
            cases hp : parseItems f rest' with
            | none => rw [hp] at h; simp at h
            | some pr =>
              obtain ⟨sp1, rest2⟩ := pr
              rw [hp] at h
              simp at h
              obtain ⟨rfl, rfl⟩ := h
              obtain ⟨hts, hmax⟩ := takeRawChars_spec ts' cs rest' htr
              obtain ⟨pre2, hpre2, hd2⟩ := ihA rest' sp1 rest2 hp
              have hh : headNotRaw sp1 :=
                parseItems_head_not_raw f rest' sp1 rest2 hp (by
                  intro c2
                  exact hmax c2)
              refine ⟨Token.RawChar c :: cs.map Token.RawChar ++ pre2, ?_, ?_⟩
              · simp [hts, hpre2]
              · have := Deriv_main_prepend_raw (DRaw_of_chars c cs) hd2 hh
                simpa using this
        case LCurly =>
          simp only [parseItems] at h
          cases htr : takeRawChars ts' with
          | mk cs0 rest0 =>
            rw [htr] at h
            cases cs0 with
            | nil => simp at h
            | cons c cs =>
              cases rest0 with
              | nil => simp at h
              | cons t0 rest1 =>
                cases t0
                case RCurly =>
                  cases hp : parseItems f rest1 with
                  | none => simp [hp] at h
                  | some pr =>
                    obtain ⟨sp1, rest2⟩ := pr
                    simp [hp] at h
                    obtain ⟨rfl, rfl⟩ := h
                    obtain ⟨hts, -⟩ :=
                      takeRawChars_spec ts' (c :: cs) (Token.RCurly :: rest1) htr
                    obtain ⟨pre2, hpre2, hd2⟩ := ihA rest1 sp1 rest2 hp
                    have hword : Deriv NT.word
                        (Token.LCurly :: (c :: cs).map Token.RawChar ++ [Token.RCurly])
                        [TgSpan.Filling (String.mk (c :: cs))] :=
                      Deriv.filling _ _ (DRaw_of_chars c cs)
                    refine ⟨(Token.LCurly :: (c :: cs).map Token.RawChar ++ [Token.RCurly])
                      ++ pre2, ?_, ?_⟩
                    · simp [hts, hpre2]
                    · exact Deriv_main_prepend_word hword hd2
                all_goals simp at h
        case LSBracket =>
          simp only [parseItems] at h
          cases hb : parseBracket f ts' with
          | none => rw [hb] at h; simp at h
          | some pr =>
            obtain ⟨w, rest1⟩ := pr
            rw [hb] at h
            cases hp : parseItems f rest1 with
            | none => simp [hp] at h
            | some pr2 =>
              obtain ⟨sp1, rest2⟩ := pr2
              simp [hp] at h
              obtain ⟨rfl, rfl⟩ := h
              obtain ⟨preB, hpreB, hdB⟩ := ihB ts' w rest1 hb
              obtain ⟨pre2, hpre2, hd2⟩ := ihA rest1 sp1 rest2 hp
              refine ⟨(Token.LSBracket :: preB) ++ pre2, ?_, ?_⟩
              · simp [hpreB, hpre2]
              · exact Deriv_main_prepend_word hdB hd2
        all_goals
          (simp only [parseItems] at h
           simp at h
           obtain ⟨rfl, rfl⟩ := h
           exact ⟨[], by simp, Deriv.main_empty⟩)
    · intro ts w rest h
      cases ts with
      | nil =>
        simp only [parseBracket] at h
        cases hp : parseItems f [] with
        | none => rw [hp] at h; simp at h
        | some pr =>
          obtain ⟨sp1, restx⟩ := pr
          rw [hp] at h
          obtain ⟨pre1, hpre1, -⟩ := ihA [] sp1 restx hp
          have hx : pre1 = [] ∧ restx = [] := by
            constructor <;> [skip; skip] <;> cases List.append_eq_nil.mp hpre1.symm <;>
              assumption
          obtain ⟨-, rfl⟩ := hx
          simp at h
      | cons t ts' =>
        cases t
        case Tick =>
          simp only [parseBracket] at h
          cases htr : takeRawChars ts' with
          | mk cs0 rest0 =>
            rw [htr] at h
            cases cs0 with
            | nil => simp at h
            | cons c cs =>
              cases rest0 with
              | nil => simp at h
              | cons t0 rest1 =>
                cases t0
                case RSBracket =>
                  simp at h
                  obtain ⟨rfl, rfl⟩ := h
                  obtain ⟨hts, -⟩ :=
                    takeRawChars_spec ts' (c :: cs) (Token.RSBracket :: rest1) htr
                  refine ⟨Token.Tick :: (c :: cs).map Token.RawChar ++ [Token.RSBracket],
                    ?_, ?_⟩
                  · simp [hts]
                  · have := Deriv.code ((c :: cs).map Token.RawChar)
                      (String.mk (c :: cs)) (DRaw_of_chars c cs)
                    simpa using this
                all_goals simp at h
        case Star =>
          simp only [parseBracket] at h
          cases hp : parseItems f ts' with
          | none => rw [hp] at h; simp at h
          | some pr =>
            obtain ⟨sp1, rest0⟩ := pr
            rw [hp] at h
            cases rest0 with
            | nil => simp at h
            | cons t0 rest1 =>
              cases t0
              case RSBracket =>
                simp at h
                obtain ⟨rfl, rfl⟩ := h
                obtain ⟨pre1, hpre1, hd1⟩ := ihA ts' sp1 (Token.RSBracket :: rest1) hp
                refine ⟨Token.Star :: pre1 ++ [Token.RSBracket], ?_, ?_⟩
                · simp [hpre1]
                · have := Deriv.bold pre1 sp1 hd1
                  simpa using this
              all_goals simp at h
        case Tilde =>
          simp only [parseBracket] at h
          cases hp : parseItems f ts' with
          | none => rw [hp] at h; simp at h
          | some pr =>
            obtain ⟨sp1, rest0⟩ := pr
            rw [hp] at h
            cases sp1 with
            | nil => simp at h
            | cons s0 sp1 =>
              cases rest0 with
              | nil => simp at h
              | cons t0 rest1 =>
                cases t0
                case RSBracket =>
                  simp at h
                  obtain ⟨rfl, rfl⟩ := h
                  obtain ⟨pre1, hpre1, hd1⟩ := ihA ts' (s0 :: sp1) (Token.RSBracket :: rest1) hp
                  have hw : Deriv NT.words pre1 (s0 :: sp1) := by
                    cases hd1 with
                    | main_words ts2 sp2 hww => exact hww
                  refine ⟨Token.Tilde :: pre1 ++ [Token.RSBracket], ?_, ?_⟩
                  · simp [hpre1]
                  · have := Deriv.strike pre1 (s0 :: sp1) hw
                    simpa using this
                all_goals simp at h
        case Underscore =>
          simp only [parseBracket] at h
          cases hp : parseItems f ts' with
          | none => rw [hp] at h; simp at h
          | some pr =>
            obtain ⟨sp1, rest0⟩ := pr
            rw [hp] at h
            cases rest0 with
            | nil => simp at h
            | cons t0 rest1 =>
              cases t0
              case RSBracket =>
                simp at h
                obtain ⟨rfl, rfl⟩ := h
                obtain ⟨pre1, hpre1, hd1⟩ := ihA ts' sp1 (Token.RSBracket :: rest1) hp
                refine ⟨Token.Underscore :: pre1 ++ [Token.RSBracket], ?_, ?_⟩
                · simp [hpre1]
                · have := Deriv.italic pre1 sp1 hd1
                  simpa using this
              all_goals simp at h
        case DoubleUnderscore =>
          simp only [parseBracket] at h
          cases hp : parseItems f ts' with
          | none => rw [hp] at h; simp at h
          | some pr =>
            obtain ⟨sp1, rest0⟩ := pr
            rw [hp] at h
            cases rest0 with
            | nil => simp at h
            | cons t0 rest1 =>
              cases t0
              case RSBracket =>
                simp at h
                obtain ⟨rfl, rfl⟩ := h
                obtain ⟨pre1, hpre1, hd1⟩ := ihA ts' sp1 (Token.RSBracket :: rest1) hp
                refine ⟨Token.DoubleUnderscore :: pre1 ++ [Token.RSBracket], ?_, ?_⟩
                · simp [hpre1]
                · have := Deriv.underline pre1 sp1 hd1
                  simpa using this
              all_goals simp at h
        case DoubleBar =>
          simp only [parseBracket] at h
          cases hp : parseItems f ts' with
          | none => rw [hp] at h; simp at h
          | some pr =>
            obtain ⟨sp1, rest0⟩ := pr
            rw [hp] at h
            cases rest0 with
            | nil => simp at h
            | cons t0 rest1 =>
              cases t0
              case RSBracket =>
                simp at h
                obtain ⟨rfl, rfl⟩ := h
                obtain ⟨pre1, hpre1, hd1⟩ := ihA ts' sp1 (Token.RSBracket :: rest1) hp
                refine ⟨Token.DoubleBar :: pre1 ++ [Token.RSBracket], ?_, ?_⟩
                · simp [hpre1]
                · have := Deriv.spoiler pre1 sp1 hd1
                  simpa using this
              all_goals simp at h
        case RawChar c0 =>
          simp only [parseBracket] at h
          cases hp : parseItems f (Token.RawChar c0 :: ts') with
          | none => rw [hp] at h; simp at h
          | some pr =>
            obtain ⟨sp1, rest0⟩ := pr
            rw [hp] at h
            cases rest0 with
            | nil => simp at h
            | cons t0 rest1 =>
              cases t0
              case RSBracket =>
                cases rest1 with
                | nil => simp at h
                | cons t1 rest2 =>
                  cases t1
                  case LParen =>
                    simp at h
                    cases htr : takeRawChars rest2 with
                    | mk cs0 rest3 =>
                      rw [htr] at h
                      cases cs0 with
                      | nil => simp at h
                      | cons c cs =>
                        cases rest3 with
                        | nil => simp at h
                        | cons t2 rest4 =>
                          cases t2
                          case RParen =>
                            simp at h
                            obtain ⟨rfl, rfl⟩ := h
                            obtain ⟨pre1, hpre1, hd1⟩ := ihA _ sp1 _ hp
                            obtain ⟨hts2, -⟩ := takeRawChars_spec _ (c :: cs) _ htr
                            refine ⟨pre1 ++ [Token.RSBracket, Token.LParen]
                              ++ (c :: cs).map Token.RawChar ++ [Token.RParen], ?_, ?_⟩
                            · simp [hpre1, hts2]
                            · have := Deriv.link pre1 sp1 ((c :: cs).map Token.RawChar)
                                (String.mk (c :: cs)) hd1 (DRaw_of_chars c cs)
                              simpa [List.append_assoc] using this
                          all_goals simp at h
                  all_goals simp at h
              all_goals simp at h
        case LCurly =>
          simp only [parseBracket] at h
          cases hp : parseItems f (Token.LCurly :: ts') with
          | none => rw [hp] at h; simp at h
          | some pr =>
            obtain ⟨sp1, rest0⟩ := pr
            rw [hp] at h
            cases rest0 with
            | nil => simp at h
            | cons t0 rest1 =>
              cases t0
              case RSBracket =>
                cases rest1 with
                | nil => simp at h
                | cons t1 rest2 =>
                  cases t1
                  case LParen =>
                    simp at h
                    cases htr : takeRawChars rest2 with
                    | mk cs0 rest3 =>
                      rw [htr] at h
                      cases cs0 with
                      | nil => simp at h
                      | cons c cs =>
                        cases rest3 with
                        | nil => simp at h
                        | cons t2 rest4 =>
                          cases t2
                          case RParen =>
                            simp at h
                            obtain ⟨rfl, rfl⟩ := h
                            obtain ⟨pre1, hpre1, hd1⟩ := ihA _ sp1 _ hp
                            obtain ⟨hts2, -⟩ := takeRawChars_spec _ (c :: cs) _ htr
                            refine ⟨pre1 ++ [Token.RSBracket, Token.LParen]
                              ++ (c :: cs).map Token.RawChar ++ [Token.RParen], ?_, ?_⟩
                            · simp [hpre1, hts2]
                            · have := Deriv.link pre1 sp1 ((c :: cs).map Token.RawChar)
                                (String.mk (c :: cs)) hd1 (DRaw_of_chars c cs)
                              simpa [List.append_assoc] using this
                          all_goals simp at h
                  all_goals simp at h
              all_goals simp at h
        case RCurly =>
          simp only [parseBracket] at h
          cases hp : parseItems f (Token.RCurly :: ts') with
          | none => rw [hp] at h; simp at h
          | some pr =>
            obtain ⟨sp1, rest0⟩ := pr
            rw [hp] at h
            cases rest0 with
            | nil => simp at h
            | cons t0 rest1 =>
              cases t0
              case RSBracket =>
                cases rest1 with
                | nil => simp at h
                | cons t1 rest2 =>
                  cases t1
                  case LParen =>
                    simp at h
                    cases htr : takeRawChars rest2 with
                    | mk cs0 rest3 =>
                      rw [htr] at h
                      cases cs0 with
                      | nil => simp at h
                      | cons c cs =>
                        cases rest3 with
                        | nil => simp at h
                        | cons t2 rest4 =>
                          cases t2
                          case RParen =>
                            simp at h
                            obtain ⟨rfl, rfl⟩ := h
                            obtain ⟨pre1, hpre1, hd1⟩ := ihA _ sp1 _ hp
                            obtain ⟨hts2, -⟩ := takeRawChars_spec _ (c :: cs) _ htr
                            refine ⟨pre1 ++ [Token.RSBracket, Token.LParen]
                              ++ (c :: cs).map Token.RawChar ++ [Token.RParen], ?_, ?_⟩
                            · simp [hpre1, hts2]
                            · have := Deriv.link pre1 sp1 ((c :: cs).map Token.RawChar)
                                (String.mk (c :: cs)) hd1 (DRaw_of_chars c cs)
                              simpa [List.append_assoc] using this
                          all_goals simp at h
                  all_goals simp at h
              all_goals simp at h
        case LSBracket =>
          simp only [parseBracket] at h
          cases hp : parseItems f (Token.LSBracket :: ts') with
          | none => rw [hp] at h; simp at h
          | some pr =>
            obtain ⟨sp1, rest0⟩ := pr
            rw [hp] at h
            cases rest0 with
            | nil => simp at h
            | cons t0 rest1 =>
              cases t0
              case RSBracket =>
                cases rest1 with
                | nil => simp at h
                | cons t1 rest2 =>
                  cases t1
                  case LParen =>
                    simp at h
                    cases htr : takeRawChars rest2 with
                    | mk cs0 rest3 =>
                      rw [htr] at h
                      cases cs0 with
                      | nil => simp at h
                      | cons c cs =>
                        cases rest3 with
                        | nil => simp at h
                        | cons t2 rest4 =>
                          cases t2
                          case RParen =>
                            simp at h
                            obtain ⟨rfl, rfl⟩ := h
                            obtain ⟨pre1, hpre1, hd1⟩ := ihA _ sp1 _ hp
                            obtain ⟨hts2, -⟩ := takeRawChars_spec _ (c :: cs) _ htr
                            refine ⟨pre1 ++ [Token.RSBracket, Token.LParen]
                              ++ (c :: cs).map Token.RawChar ++ [Token.RParen], ?_, ?_⟩
                            · simp [hpre1, hts2]
                            · have := Deriv.link pre1 sp1 ((c :: cs).map Token.RawChar)
                                (String.mk (c :: cs)) hd1 (DRaw_of_chars c cs)
                              simpa [List.append_assoc] using this
                          all_goals simp at h
                  all_goals simp at h
              all_goals simp at h
        case RSBracket =>
          simp only [parseBracket] at h
          cases hp : parseItems f (Token.RSBracket :: ts') with
          | none => rw [hp] at h; simp at h
          | some pr =>
            obtain ⟨sp1, rest0⟩ := pr
            rw [hp] at h
            cases rest0 with
            | nil => simp at h
            | cons t0 rest1 =>
              cases t0
              case RSBracket =>
                cases rest1 with
                | nil => simp at h
                | cons t1 rest2 =>
                  cases t1
                  case LParen =>
                    simp at h
                    cases htr : takeRawChars rest2 with
                    | mk cs0 rest3 =>
                      rw [htr] at h
                      cases cs0 with
                      | nil => simp at h
                      | cons c cs =>
                        cases rest3 with
                        | nil => simp at h
                        | cons t2 rest4 =>
                          cases t2
                          case RParen =>
                            simp at h
                            obtain ⟨rfl, rfl⟩ := h
                            obtain ⟨pre1, hpre1, hd1⟩ := ihA _ sp1 _ hp
                            obtain ⟨hts2, -⟩ := takeRawChars_spec _ (c :: cs) _ htr
                            refine ⟨pre1 ++ [Token.RSBracket, Token.LParen]
                              ++ (c :: cs).map Token.RawChar ++ [Token.RParen], ?_, ?_⟩
                            · simp [hpre1, hts2]
                            · have := Deriv.link pre1 sp1 ((c :: cs).map Token.RawChar)
                                (String.mk (c :: cs)) hd1 (DRaw_of_chars c cs)
                              simpa [List.append_assoc] using this
                          all_goals simp at h
                  all_goals simp at h
              all_goals simp at h
        case LParen =>
          simp only [parseBracket] at h
          cases hp : parseItems f (Token.LParen :: ts') with
          | none => rw [hp] at h; simp at h
          | some pr =>
            obtain ⟨sp1, rest0⟩ := pr
            rw [hp] at h
            cases rest0 with
            | nil => simp at h
            | cons t0 rest1 =>
              cases t0
              case RSBracket =>
                cases rest1 with
                | nil => simp at h
                | cons t1 rest2 =>
                  cases t1
                  case LParen =>
                    simp at h
                    cases htr : takeRawChars rest2 with
                    | mk cs0 rest3 =>
                      rw [htr] at h
                      cases cs0 with
                      | nil => simp at h
                      | cons c cs =>
                        cases rest3 with
                        | nil => simp at h
                        | cons t2 rest4 =>
                          cases t2
                          case RParen =>
                            simp at h
                            obtain ⟨rfl, rfl⟩ := h
                            obtain ⟨pre1, hpre1, hd1⟩ := ihA _ sp1 _ hp
                            obtain ⟨hts2, -⟩ := takeRawChars_spec _ (c :: cs) _ htr
                            refine ⟨pre1 ++ [Token.RSBracket, Token.LParen]
                              ++ (c :: cs).map Token.RawChar ++ [Token.RParen], ?_, ?_⟩
                            · simp [hpre1, hts2]
                            · have := Deriv.link pre1 sp1 ((c :: cs).map Token.RawChar)
                                (String.mk (c :: cs)) hd1 (DRaw_of_chars c cs)
                              simpa [List.append_assoc] using this
                          all_goals simp at h
                  all_goals simp at h
              all_goals simp at h
        case RParen =>
          simp only [parseBracket] at h
          cases hp : parseItems f (Token.RParen :: ts') with
          | none => rw [hp] at h; simp at h
          | some pr =>
            obtain ⟨sp1, rest0⟩ := pr
            rw [hp] at h
            cases rest0 with
            | nil => simp at h
            | cons t0 rest1 =>
              cases t0
              case RSBracket =>
                cases rest1 with
                | nil => simp at h
                | cons t1 rest2 =>
                  cases t1
                  case LParen =>
                    simp at h
                    cases htr : takeRawChars rest2 with
                    | mk cs0 rest3 =>
                      rw [htr] at h
                      cases cs0 with
                      | nil => simp at h
                      | cons c cs =>
                        cases rest3 with
                        | nil => simp at h
                        | cons t2 rest4 =>
                          cases t2
                          case RParen =>
                            simp at h
                            obtain ⟨rfl, rfl⟩ := h
                            obtain ⟨pre1, hpre1, hd1⟩ := ihA _ sp1 _ hp
                            obtain ⟨hts2, -⟩ := takeRawChars_spec _ (c :: cs) _ htr
                            refine ⟨pre1 ++ [Token.RSBracket, Token.LParen]
                              ++ (c :: cs).map Token.RawChar ++ [Token.RParen], ?_, ?_⟩
                            · simp [hpre1, hts2]
                            · have := Deriv.link pre1 sp1 ((c :: cs).map Token.RawChar)
                                (String.mk (c :: cs)) hd1 (DRaw_of_chars c cs)
                              simpa [List.append_assoc] using this
                          all_goals simp at h
                  all_goals simp at h
              all_goals simp at h

/-- C3: murkdown parsing never yields partial output — a successful
`from_murkdown` implies the token stream derives from the grammar's
`input`/`main` production (so any underivable stream returns the parse
error), and the unterminated-bracket example is rejected with a parse
error rather than a best-effort tree. -/
theorem c3_underivable_is_error :
    (∀ (s : String) (b : MarkupBuilder), from_murkdown s = Except.ok b →
      ∃ sp, Deriv NT.main (lex s.data) sp)
    ∧ from_murkdown "[*unterminated" = Except.error {} := by
  constructor
  · intro s b h
    rw [show from_murkdown s = from_murkdown_internal s none from rfl,
        from_murkdown_internal_eq] at h
    cases hp : murk_parse s with
    | none => rw [hp] at h; simp at h
    | some pr =>
      obtain ⟨sp, rest⟩ := pr
      rw [hp] at h
      cases rest with
      | nil =>
        have hp' : parseItems (parseFuel (lex s.data)) (lex s.data) = some (sp, []) := hp
        obtain ⟨pre, hpre, hd⟩ := (parse_sound (parseFuel (lex s.data))).1 _ sp [] hp'
        refine ⟨sp, ?_⟩
        rw [show lex s.data = pre from by simpa using hpre]
        exact hd
      | cons t rest' => simp at h
  · rfl

/-- Witness for C3: at `"[*bold]"` the parse succeeds, so its token stream
is derivable. -/
theorem c3_underivable_is_error_witness :
    ∃ sp, Deriv NT.main (lex ("[*bold]" : String).data) sp :=
  c3_underivable_is_error.1 "[*bold]"
    { entities := [mkEntity "bold" 0 4], offset := 4, text := "bold" } (by
      rw [show from_murkdown "[*bold]" = from_murkdown_internal "[*bold]" none from rfl,
          from_murkdown_internal_eq]
      rw [show murk_parse "[*bold]" = some ([TgSpan.Bold [TgSpan.Raw "bold"]], []) from rfl]
      simp [parse_tgspan, parse_fold_bold, parse_fold, MarkupBuilder.textOp,
        MarkupBuilder.manual, MarkupBuilder.new, mkEntity, utf16Str, utf16Char])

/-! ### Markdown adapter (claim C7) -/

/-- Inline span tree of the external `markdown` crate, as consumed by
`parse_span`. -/
inductive Span where
  | Break
  | Text (text : String)
  | Code (code : String)
  | Link (hint url : String) (title : Option String)
  | Image (alt url : String) (title : Option String)
  | Emphasis (children : List Span)
  | Strong (children : List Span)

mutual

/-- Block tree of the external `markdown` crate, as consumed by
`parse_block` (the ordered-list style argument is ignored by the source
and modelled as `Unit`). -/
inductive Block where
  | Header (spans : List Span) (level : Nat)
  | Paragraph (spans : List Span)
  | Blockquote (blocks : List Block)
  | CodeBlock (language : Option String) (code : String)
  | OrderedList (items : List ListItem) (style : Unit)
  | UnorderedList (items : List ListItem)
  | Raw (text : String)
  | Hr

/-- List items of the external `markdown` crate. -/
inductive ListItem where
  | Simple (spans : List Span)
  | Paragraph (blocks : List Block)

end

mutual

/-- `MarkupBuilder::parse_span`: resolves one markdown inline span,
returning the updated builder and the span's UTF-16 size contribution. -/
def parse_span (b : MarkupBuilder) : Span → MarkupBuilder × Int
  | Span.Break => (b.textOp "\n", (utf16Str "\n" : Int))
  | Span.Text text => (b.textOp text, (utf16Str text : Int))
  | Span.Code code => (b.code code, (utf16Str code : Int))
  | Span.Link hint link _ => (b.text_link hint link none, (utf16Str hint : Int))
  | Span.Image _ _ _ => (b, 0)
  | Span.Emphasis emp =>
    let p := parse_spans b emp
    ({ p.1 with entities := p.1.entities ++ [mkEntity "italic" b.offset p.2] }, p.2)
  | Span.Strong emp =>
    let p := parse_spans b emp
    ({ p.1 with entities := p.1.entities ++ [mkEntity "bold" b.offset p.2] }, p.2)

/-- The `for_each` fold over inline spans, summing size contributions. -/
def parse_spans (b : MarkupBuilder) : List Span → MarkupBuilder × Int
  | [] => (b, 0)
  | sp :: rest =>
    let p1 := parse_span b sp
    let p2 := parse_spans p1.1 rest
    (p2.1, p1.2 + p2.2)

end

mutual

/-- `MarkupBuilder::parse_block`. -/
def parse_block (b : MarkupBuilder) : Block → MarkupBuilder
  | Block.Header spans _ => (parse_spans b spans).1
  | Block.Paragraph spans => (parse_spans b spans).1
  | Block.Blockquote blocks => parse_blocks b blocks
  | Block.CodeBlock _ s => b.code s
  | Block.OrderedList l _ => parse_listitems b l
  | Block.UnorderedList l => parse_listitems b l
  | Block.Raw str => b.textOp str
  | Block.Hr => b

/-- The fold of `parse_block` over a block list. -/
def parse_blocks (b : MarkupBuilder) : List Block → MarkupBuilder
  | [] => b
  | bl :: rest => parse_blocks (parse_block b bl) rest

/-- `MarkupBuilder::parse_listitem`. -/
def parse_listitem (b : MarkupBuilder) : ListItem → MarkupBuilder
  | ListItem.Simple spans => (parse_spans b spans).1
  | ListItem.Paragraph paragraphs => parse_blocks b paragraphs

/-- The fold of `parse_listitem` over the items of a list block. -/
def parse_listitems (b : MarkupBuilder) : List ListItem → MarkupBuilder
  | [] => b
  | i :: rest => parse_listitems (parse_listitem b i) rest

end

/-- `MarkupBuilder::from_markdown` after the external `markdown::tokenize`
call (the tokenizer is a third-party crate outside this repository; this
models the fold of its output): resolves the block list into a fresh
builder. -/
def from_markdown_blocks (blocks : List Block) : MarkupBuilder :=
  parse_blocks MarkupBuilder.new blocks

/-- String append with the empty string. -/
theorem strAppend_empty (s : String) : s ++ "" = s := by
  cases s with
  | mk l =>
    show String.mk (l ++ []) = String.mk l
    rw [List.append_nil]

/-- String append is associative. -/
theorem strAppend_assoc (a b c : String) : a ++ b ++ c = a ++ (b ++ c) := by
  cases a with
  | mk la =>
    cases b with
    | mk lb =>
      cases c with
      | mk lc =>
        show String.mk (la ++ lb ++ lc) = String.mk (la ++ (lb ++ lc))
        rw [List.append_assoc]

mutual

/-- `parse_span` appends text of exactly its returned size and advances the
cursor by it. -/
theorem parse_span_growth : ∀ (sp : Span) (b : MarkupBuilder),
    ∃ t, (parse_span b sp).1.text = b.text ++ t ∧
      (parse_span b sp).2 = (utf16Str t : Int) ∧
      (parse_span b sp).1.offset = b.offset + (utf16Str t : Int) := by
  intro sp b
  cases sp with
  | Break => exact ⟨"\n", by simp [parse_span, MarkupBuilder.textOp]⟩
  | Text text => exact ⟨text, by simp [parse_span, MarkupBuilder.textOp]⟩
  | Code code =>
    exact ⟨code, by simp [parse_span, MarkupBuilder.code, MarkupBuilder.regular,
      MarkupType.text]⟩
  | Link hint link title =>
    exact ⟨hint, by simp [parse_span, MarkupBuilder.text_link]⟩
  | Image alt url title =>
    exact ⟨"", by simp [parse_span, strAppend_empty, utf16Str]⟩
  | Emphasis emp =>
    obtain ⟨t, h1, h2, h3⟩ := parse_spans_growth emp b
    exact ⟨t, by simp [parse_span, h1, h2, h3]⟩
  | Strong emp =>
    obtain ⟨t, h1, h2, h3⟩ := parse_spans_growth emp b
    exact ⟨t, by simp [parse_span, h1, h2, h3]⟩
termination_by sp b => sizeOf sp

/-- `parse_spans` appends text of exactly its returned total size. -/
theorem parse_spans_growth : ∀ (l : List Span) (b : MarkupBuilder),
    ∃ t, (parse_spans b l).1.text = b.text ++ t ∧
      (parse_spans b l).2 = (utf16Str t : Int) ∧
      (parse_spans b l).1.offset = b.offset + (utf16Str t : Int) := by
  intro l b
  cases l with
  | nil => exact ⟨"", by simp [parse_spans, strAppend_empty, utf16Str]⟩
  | cons sp rest =>
    obtain ⟨t1, h1, h2, h3⟩ := parse_span_growth sp b
    obtain ⟨t2, g1, g2, g3⟩ := parse_spans_growth rest (parse_span b sp).1
    refine ⟨t1 ++ t2, ?_, ?_, ?_⟩
    · simp [parse_spans, g1, h1, strAppend_assoc]
    · simp [parse_spans, g2, h2, utf16Str_append]
      try push_cast
      try ring
    · simp [parse_spans, g3, h3, utf16Str_append]
      try push_cast
      try ring
termination_by l b => sizeOf l

end

/-- C7: on the Markdown path an Emphasis span emits exactly one italic
entity and a Strong span exactly one bold entity, each anchored at the
cursor before its children with length the UTF-16 length of the text its
children appended; images contribute nothing; and the bold-word plus
hyperlink fixture yields exactly the two entities bold and text_link. -/
theorem c7_markdown_emphasis_strong :
    (∀ (b : MarkupBuilder) (l : List Span),
      (parse_span b (Span.Emphasis l)).1.entities =
        (parse_spans b l).1.entities ++ [mkEntity "italic" b.offset (parse_spans b l).2]
      ∧ (parse_span b (Span.Emphasis l)).2 = (parse_spans b l).2
      ∧ ∃ t, (parse_spans b l).1.text = b.text ++ t ∧
          (parse_spans b l).2 = (utf16Str t : Int))
    ∧ (∀ (b : MarkupBuilder) (l : List Span),
      (parse_span b (Span.Strong l)).1.entities =
        (parse_spans b l).1.entities ++ [mkEntity "bold" b.offset (parse_spans b l).2]
      ∧ (parse_span b (Span.Strong l)).2 = (parse_spans b l).2
      ∧ ∃ t, (parse_spans b l).1.text = b.text ++ t ∧
          (parse_spans b l).2 = (utf16Str t : Int))
    ∧ (∀ (b : MarkupBuilder) (alt url : String) (title : Option String),
        parse_span b (Span.Image alt url title) = (b, 0))
    ∧ (from_markdown_blocks [Block.Paragraph
          [Span.Strong [Span.Text "bold"], Span.Text " ",
           Span.Link "hint" "url" none]]).entities.map
        (fun e => (e.type, e.offset, e.length)) =
        [("bold", 0, 4), ("text_link", 5, 4)] := by
  refine ⟨?_, ?_, ?_, ?_⟩
  · intro b l
    obtain ⟨t, h1, h2, h3⟩ := parse_spans_growth l b
    exact ⟨by simp [parse_span], by simp [parse_span], t, h1, h2⟩
  · intro b l
    obtain ⟨t, h1, h2, h3⟩ := parse_spans_growth l b
    exact ⟨by simp [parse_span], by simp [parse_span], t, h1, h2⟩
  · intro b alt url title
    simp [parse_span]
  · simp [from_markdown_blocks, parse_blocks, parse_block, parse_spans, parse_span,
      MarkupBuilder.textOp, MarkupBuilder.text_link, MarkupBuilder.new, mkEntity,
      utf16Str, utf16Char]

end Bobot
